import Mathlib

/-!
# Verification of the ForerunnerDB binary index tree and persistence codec

A shallow embedding of `BinaryTree` (the compound-index binary search tree)
and of the `NodePersist` encode/decode steps, with theorems settling the
spec's claims about them.

JavaScript values are modelled by `Val` (numbers as integers, strings,
`undefined`, and plain objects as ordered association lists).  Stateful
node mutation is modelled by rebuilding the affected spine of the tree;
the aliasing effects of `_remove`'s in-place splice are reproduced
denotationally.  Operations that can throw a `TypeError` (member access on
`undefined`, `.substr` on a non-string) return `Except String _`.
-/

namespace FDB

mutual

/-- A JavaScript value as used by the tree: `undefined`, a number, a string,
or a plain object (ordered field list).  Numbers are modelled as integers;
none of the verified scenarios depend on float behaviour. -/
inductive Val : Type where
  | undef : Val
  | num : Int → Val
  | str : String → Val
  | obj : Fields → Val
deriving Repr, DecidableEq

/-- The ordered field list of a plain object. -/
inductive Fields : Type where
  | nil : Fields
  | cons (key : String) (val : Val) (rest : Fields) : Fields
deriving Repr, DecidableEq

end

/-- Object field lookup: first binding wins, absent fields read as
`undefined` (JS property access on a plain object). -/
def fieldGet : Fields → String → Val
  | .nil, _ => .undef
  | .cons k v rest, key => if k = key then v else fieldGet rest key

/-- Modelled from the spec: the Path resolver's `get(document, path)`
(`Path.js` is not under `src/`) — resolves one path segment after another
against a document, any missing intermediate segment yielding `undefined`
rather than an error. -/
def getSegs : Val → List String → Val
  | v, [] => v
  | .obj fs, k :: rest => getSegs (fieldGet fs k) rest
  | _, _ :: _ => (.undef)

/-- Splits a dotted path into segments (structural recursion over the
characters, so that concrete evaluation stays kernel-reducible). -/
def splitSegsAux : List Char → List Char → List String
  | [], acc => [acc.reverse.asString]
  | c :: rest, acc =>
    if c = '.' then acc.reverse.asString :: splitSegsAux rest []
    else splitSegsAux rest (c :: acc)

/-- The segments of a dotted path string. -/
def splitPath (path : String) : List String :=
  splitSegsAux path.toList []

/-- Modelled from the spec: `sharedPathSolver.get` on a dotted path string. -/
def pathGet (v : Val) (path : String) : Val :=
  getSegs v (splitPath path)

/-- JS falsiness: `undefined`, `0` and `""` are falsy, objects are truthy. -/
def jsFalsy : Val → Bool
  | .undef => true
  | .num n => n = 0
  | .str s => s = ""
  | .obj _ => false

/-- JS property-key coercion: the key expression of `data[pk]` is converted
to a string, so an `undefined` primary key reads the `"undefined"` field. -/
def keyToStr : Val → String
  | .undef => "undefined"
  | .num n => toString n
  | .str s => s
  | .obj _ => "[object Object]"

/-- JS member access `v[k]`: throws a `TypeError` on `undefined`, yields
`undefined` on primitive receivers (no own properties modelled), and looks
the field up on objects. -/
def member : Val → String → Except String Val
  | .undef, _ => .error "TypeError: cannot read property of undefined"
  | .num _, _ => .ok .undef
  | .str _, _ => .ok .undef
  | .obj fs, k => .ok (fieldGet fs k)

/-- JS strict equality `===` restricted to the shapes the tree compares:
primitives by value; two distinct object literals are distinct references,
so object comparisons are `false` in this model. -/
def strictEq : Val → Val → Bool
  | .undef, .undef => true
  | .num a, .num b => a = b
  | .str a, .str b => a = b
  | _, _ => false

/-! ## The sorting mixin and the compound comparator -/

/-- Three-way comparison induced by a linear order, clamped to
`-1`/`0`/`1`. -/
def cmp3 {α : Type _} [LinearOrder α] (a b : α) : Int :=
  if a < b then -1 else if b < a then 1 else 0

/-- Sort key of a defined value: values of different runtime types are
ranked by type (numbers before strings before objects); numbers compare
numerically, strings lexicographically, and all objects compare equal
(JS relational operators coerce plain objects to the same string). -/
def valKey : Val → Lex (Nat × Lex (Int × String))
  | .undef => toLex (0, toLex (0, ""))
  | .num n => toLex (1, toLex (n, ""))
  | .str s => toLex (2, toLex (0, s))
  | .obj _ => toLex (3, toLex (0, ""))

/-- Three-way comparison of integers. -/
def intCmp (a b : Int) : Int :=
  if a < b then -1 else if b < a then 1 else 0

/-- Three-way comparison of strings (by their character lists, which is
the lexicographic string order). -/
def strCmp (a b : String) : Int :=
  if a.toList < b.toList then -1 else if b.toList < a.toList then 1 else 0

/-- Modelled from the spec: the natural ordering used by the sorting mixin
(`Mixin.Sorting` is not under `src/`) on two defined values: numbers
numerically, strings lexicographically, objects all equal, and distinct
runtime types ranked numbers < strings < objects. -/
def valCmp (a b : Val) : Int :=
  match a, b with
  | .num n, .num m => intCmp n m
  | .str s, .str t => strCmp s t
  | .obj _, .obj _ => 0
  | .num _, .str _ => -1
  | .num _, .obj _ => -1
  | .str _, .obj _ => -1
  | .str _, .num _ => 1
  | .obj _, .num _ => 1
  | .obj _, .str _ => 1
  | .undef, _ => 0
  | _, .undef => 0

/-- Modelled from the spec: `Mixin.Sorting.sortAscIgnoreUndefined` — two
`undefined` values are equal, a defined value sorts greater than an
`undefined` one, otherwise natural ordering. -/
def sortAscIgnoreUndefined (a b : Val) : Int :=
  match a, b with
  | .undef, .undef => 0
  | .undef, _ => -1
  | _, .undef => 1
  | _, _ => valCmp a b

/-- Modelled from the spec: `Mixin.Sorting.sortDescIgnoreUndefined` — the
`undefined` handling is direction-independent (undefined always sorts
lowest) and only the natural comparison is negated. -/
def sortDescIgnoreUndefined (a b : Val) : Int :=
  match a, b with
  | .undef, .undef => 0
  | .undef, _ => -1
  | _, .undef => 1
  | _, _ => -(valCmp a b)

/-- One entry of the parsed key list (`sharedPathSolver.parse(index, true)`):
a field path and its direction value (`1` ascending, `-1` descending). -/
structure KeyEntry : Type where
  path : String
  value : Int
deriving Repr, DecidableEq

/-- The loop body of `BinaryTree.prototype._compareFunc`: walk the parsed
key list, overwrite `result` with the directional comparison of the
resolved field values, and return as soon as `result` is non-zero.  A
direction other than `1`/`-1` leaves `result` unchanged, as in the source. -/
def compareFuncFrom (ks : List KeyEntry) (a b : Val) (result : Int) : Int :=
  match ks with
  | [] => result
  | k :: rest =>
      let result :=
        if k.value = 1 then
          sortAscIgnoreUndefined (pathGet a k.path) (pathGet b k.path)
        else if k.value = -1 then
          sortDescIgnoreUndefined (pathGet a k.path) (pathGet b k.path)
        else result
      if result ≠ 0 then result else compareFuncFrom rest a b result

/-- `BinaryTree.prototype._compareFunc` with the parsed key list `ks`. -/
def compareFunc (ks : List KeyEntry) (a b : Val) : Int :=
  compareFuncFrom ks a b 0

/-! ## The tree -/

mutual

/-- A `BinaryTree` node: payload (`_data`, `undefined` after `clear`),
bucket (`_store`), primary key (`_primaryKey`, `undefined` when never
assigned) and the two child references.  The parsed key list is shared by
every node of a tree and is passed to the operations separately. -/
inductive BTree : Type where
  | node (data : Val) (store : List Val) (pk : Val)
      (left : Child) (right : Child)
deriving Repr, DecidableEq

/-- A child reference: absent (`delete`d / never assigned) or a node. -/
inductive Child : Type where
  | none : Child
  | some (t : BTree) : Child
deriving Repr, DecidableEq

end

mutual

/-- `BinaryTree.prototype.insert` (single document).  An empty node
(falsy `_data`) takes the document as its payload; otherwise comparator
result `0` or `1` goes left and `-1` goes right, recursing into an existing
child or creating a new node.  A newly created child is constructed as
`new BinaryTree(data, this._index, this._binaryTree, ...)`: `_binaryTree`
is never assigned anywhere in the source, so the child's primary key is
`undefined`. -/
def insert (ks : List KeyEntry) : BTree → Val → BTree
  | .node D s pk l r, d =>
    if jsFalsy D then .node d s pk l r
    else
      let result := compareFunc ks D d
      if result = 0 then .node D s pk (insertChild ks l d) r
      else if result = -1 then .node D s pk l (insertChild ks r d)
      else if result = 1 then .node D s pk (insertChild ks l d) r
      else .node D s pk l r

/-- The branch step of `insert`: recurse into an existing child, or create
a new node there (`new BinaryTree(data, this._index, this._binaryTree,
...)` — `_binaryTree` is never assigned, so the new node's primary key is
`undefined`, and its `_store` starts empty). -/
def insertChild (ks : List KeyEntry) : Child → Val → Child
  | .some t, d => .some (insert ks t d)
  | .none, d => .some (.node d [] .undef .none .none)

end

/-- Builds a tree the way the surrounding system does: the first document
becomes the root payload (`new BinaryTree(data, index, primaryKey, ...)`),
the rest are inserted one by one.  `none` is the never-constructed tree. -/
def buildTree (ks : List KeyEntry) (pkv : Val) : List Val → Option BTree
  | [] => none
  | d :: ds => some (ds.foldl (insert ks) (.node d [] pkv .none .none))

mutual

/-- `BinaryTree.prototype.lookup`: comparator result `0` visits the left
subtree, pushes the payload and visits the right subtree; `-1` descends
right only; `1` descends left only. -/
def lookup (ks : List KeyEntry) : BTree → Val → List Val
  | .node D _ _ l r, d =>
    let result := compareFunc ks D d
    if result = 0 then lookupC ks l d ++ [D] ++ lookupC ks r d
    else if result = -1 then lookupC ks r d
    else if result = 1 then lookupC ks l d
    else []

def lookupC (ks : List KeyEntry) : Child → Val → List Val
  | .some t, d => lookup ks t d
  | .none, _ => []

end

mutual

/-- `BinaryTree.prototype.inOrder('data')`: the in-order payload dump. -/
def inOrderData : BTree → List Val
  | .node D _ _ l r => childDocs l ++ [D] ++ childDocs r

/-- The in-order documents of a child reference. -/
def childDocs : Child → List Val
  | .none => []
  | .some t => inOrderData t

end

/-- `leftNode.rightMost()._right = rightNode`: attach `x` as the right
child of the right-most descendant. -/
def attachRM : BTree → BTree → BTree
  | .node D s pk l .none, x => .node D s pk l (.some x)
  | .node D s pk l (.some rt), x => .node D s pk l (.some (attachRM rt x))

/-- `BinaryTree.prototype._remove` (the splice), denotationally.  With a
left child, the left child's payload, bucket and children are copied up and
the old right subtree is attached at `leftNode.rightMost()._right`; when
the left child has no right child, `rightMost()` is the (now orphaned) left
child object itself, so that attachment is unreachable and the old right
subtree is dropped from the tree — exactly as in the source.  Without a
left child the right child is copied up; with no children the node is
cleared (`clear()` drops `_data`, `_left`, `_right` and empties `_store`
but keeps `_primaryKey`). -/
def spliceRemove : BTree → BTree
  | .node _ _ pk (.some (.node lD ls _ ll lr)) r =>
      match r with
      | .some rn =>
          match lr with
          | .some lrt => .node lD ls pk ll (.some (attachRM lrt rn))
          | .none => .node lD ls pk ll .none
      | .none => .node lD ls pk ll lr
  | .node _ _ pk .none (.some (.node rD rs _ rl rr)) => .node rD rs pk rl rr
  | .node _ _ pk .none .none => .node .undef [] pk .none .none

mutual

/-- `BinaryTree.prototype.remove` (single document): if
`this._data[pk] === data[pk]` the node is spliced, otherwise comparator
result `-1` descends right and `1` descends left when the child exists;
member access models the `TypeError` JS would throw on an `undefined`
receiver. -/
def removeE (ks : List KeyEntry) : BTree → Val → Except String (BTree × Bool)
  | .node D s pk l r, d => do
    let dv ← member D (keyToStr pk)
    let xv ← member d (keyToStr pk)
    if strictEq dv xv then
      .ok (spliceRemove (.node D s pk l r), true)
    else
      let result := compareFunc ks D d
      if result = -1 then do
        let (r2, b) ← removeChildE ks r d
        .ok (.node D s pk l r2, b)
      else if result = 1 then do
        let (l2, b) ← removeChildE ks l d
        .ok (.node D s pk l2 r, b)
      else .ok (.node D s pk l r, false)

/-- The branch step of `remove`: descend when the child exists
(`result === -1 && this._right`), otherwise fall through to `return
false` with the tree unchanged. -/
def removeChildE (ks : List KeyEntry) : Child → Val →
    Except String (Child × Bool)
  | .some t, d => do
      let (t2, b) ← removeE ks t d
      .ok (.some t2, b)
  | .none, _ => .ok (.none, false)

end

mutual

/-- `BinaryTree.prototype.findRange(type = 'data')`: an unpruned in-order
scan including each payload whose resolved field value lies within the
inclusive bounds, both checks made with `sortAscIgnoreUndefined`. -/
def findRangeData (key : String) (vFrom vTo : Val) : BTree → List Val
  | .node D _ _ l r =>
    let pathVal := pathGet D key
    let fromResult := sortAscIgnoreUndefined pathVal vFrom
    let toResult := sortAscIgnoreUndefined pathVal vTo
    findRangeC key vFrom vTo l
      ++ (if (fromResult = 0 ∨ fromResult = 1) ∧ (toResult = 0 ∨ toResult = -1)
          then [D] else [])
      ++ findRangeC key vFrom vTo r

def findRangeC (key : String) (vFrom vTo : Val) : Child → List Val
  | .some t => findRangeData key vFrom vTo t
  | .none => []

end

/-- The first `n` characters of a string (JS `substr(0, n)`). -/
def strTake (s : String) (n : Nat) : String :=
  (s.toList.take n).asString

/-- JS `String.prototype.substr(0, n)` on a resolved field value: throws a
`TypeError` unless the receiver is a string. -/
def substrJS (v : Val) (n : Nat) : Except String String :=
  match v with
  | .str s => .ok (strTake s n)
  | _ => .error "TypeError: substr is not a function"

mutual

/-- `BinaryTree.prototype.startsWith`: the truncated field value is
compared against `val` with `sortAscIgnoreUndefined`; an equal truncation
visits both children and pushes the payload when the truncation matches
exactly, otherwise only the branch consistent with ascending order is
visited.  (The pushes inside the `-1`/`1` branches are kept even though
`reTest` is false there, as in the source.) -/
def startsWithE (path : String) (val : String) :
    BTree → Except String (List Val)
  | .node D _ _ l r => do
    let sub ← substrJS (pathGet D path) val.length
    let result := sortAscIgnoreUndefined (.str sub) (.str val)
    let reTest := sub = val
    if result = 0 then do
      let la ← startsWithC path val l
      let ra ← startsWithC path val r
      .ok (la ++ (if reTest then [D] else []) ++ ra)
    else if result = -1 then do
      let ra ← startsWithC path val r
      .ok ((if reTest then [D] else []) ++ ra)
    else if result = 1 then do
      let la ← startsWithC path val l
      .ok (la ++ (if reTest then [D] else []))
    else .ok []

def startsWithC (path : String) (val : String) :
    Child → Except String (List Val)
  | .some t => startsWithE path val t
  | .none => .ok []

end

/-! ## The usability scorer -/

/-- The ordered list of an object's field names. -/
def Fields.keys : Fields → List String
  | .nil => []
  | .cons k _ rest => k :: rest.keys

/-- Modelled from the spec: `sharedPathSolver.parseArr` on the index's own
field specification (`Path.js` is not under `src/`) — the ordered list of
the specification object's field paths. -/
def parseArrIndex : Val → List String
  | .obj fs => fs.keys
  | _ => []

/-- Modelled from the spec: `sharedPathSolver.parseArr` on the query with
the default `ignore: /\$/` path option — the ordered field paths of the
query, dropping operator keys (those containing a `$`). -/
def parseArrQuery : Val → List String
  | .obj fs => fs.keys.filter (fun k => ¬ k.toList.contains '$')
  | _ => []

/-- The result shape of `BinaryTree.prototype.match`. -/
structure MatchResult : Type where
  matchedKeys : List String
  totalKeyCount : Nat
  score : Nat
deriving Repr, DecidableEq

/-- The scoring loop of `BinaryTree.prototype.match`: `i` runs over the
index key positions (the first argument is the suffix of the index key
array from position `i`) and every position where `queryArr[i] ===
indexKeyArr[i]` pushes the key and bumps the score (an out-of-range
`queryArr[i]` is `undefined` and never equal to a present index key). -/
def matchLoop (queryArr : List String) : List String → Nat →
    List String × Nat
  | [], _ => ([], 0)
  | idxKey :: restIdx, i =>
    let rest := matchLoop queryArr restIdx (i + 1)
    if queryArr.get? i = some idxKey then
      (((queryArr.get? i).getD "") :: rest.1, rest.2 + 1)
    else rest

/-- `BinaryTree.prototype.match` with the default path options. -/
def matchIndex (index query : Val) : MatchResult :=
  let indexKeyArr := parseArrIndex index
  let queryArr := parseArrQuery query
  let res := matchLoop queryArr indexKeyArr 0
  { matchedKeys := res.1, totalKeyCount := queryArr.length, score := res.2 }

/-- The comparator laws the tree proofs rely on: results in
`{-1, 0, 1}`, antisymmetric flip, and transitivity of the induced
(pre)order in the mixed strict/non-strict forms. -/
structure IsCmp (f : Val → Val → Int) : Prop where
  range : ∀ a b, f a b = -1 ∨ f a b = 0 ∨ f a b = 1
  flip : ∀ a b, f a b = -(f b a)
  eq_trans : ∀ a b c, f a b = 0 → f b c = 0 → f a c = 0
  le_trans : ∀ a b c, f a b ≤ 0 → f b c ≤ 0 → f a c ≤ 0
  lt_of_lt_of_le : ∀ a b c, f a b = -1 → f b c ≤ 0 → f a c = -1
  lt_of_le_of_lt : ∀ a b c, f a b ≤ 0 → f b c = -1 → f a c = -1

/-- The sort-key codomain of a defined value. -/
abbrev SKey := Lex (Nat × Lex (Int × String))

/-- The ascending sort key of a resolved value: `undefined` is at the
bottom, defined values are ordered by `valKey`. -/
def ascKey : Val → WithBot SKey
  | .undef => ⊥
  | v => ((valKey v : SKey) : WithBot SKey)

/-- The descending sort key: `undefined` stays at the bottom and only the
defined values are reversed. -/
def descKey : Val → WithBot SKeyᵒᵈ
  | .undef => ⊥
  | v => ((OrderDual.toDual (valKey v) : SKeyᵒᵈ) : WithBot SKeyᵒᵈ)

/-- One field's contribution to the compound comparator (the value the
source's loop assigns to `result` when the carried `result` is `0`). -/
def fieldCmp (k : KeyEntry) (a b : Val) : Int :=
  if k.value = 1 then
    sortAscIgnoreUndefined (pathGet a k.path) (pathGet b k.path)
  else if k.value = -1 then
    sortDescIgnoreUndefined (pathGet a k.path) (pathGet b k.path)
  else 0

/-- Lexicographic combination of two comparators: the first decides unless
it compares equal. -/
def lexCmp (f g : Val → Val → Int) (a b : Val) : Int :=
  if f a b ≠ 0 then f a b else g a b

/-- Every stored document is truthy (documents are objects, so `insert`
never reaches its overwrite-on-falsy-payload branch inside the tree). -/
def truthyAll (t : BTree) : Prop :=
  ∀ x ∈ inOrderData t, jsFalsy x = false

mutual

/-- The search invariant `insert` maintains: everything in a left subtree
compares `0` or `1` against the node's payload, everything in a right
subtree compares `-1`. -/
def WF (ks : List KeyEntry) : BTree → Prop
  | .node D _ _ l r =>
    (∀ x ∈ childDocs l, compareFunc ks D x = 0 ∨ compareFunc ks D x = 1) ∧
    (∀ y ∈ childDocs r, compareFunc ks D y = -1) ∧
    WFc ks l ∧ WFc ks r

def WFc (ks : List KeyEntry) : Child → Prop
  | .none => True
  | .some t => WF ks t

end
/-! ## The primary-key invariant of inserted child nodes -/

mutual

/-- Every node in the tree has an `undefined` primary key. -/
def allPkUndef : BTree → Bool
  | .node _ _ pk l r =>
    decide (pk = Val.undef) && allPkUndefC l && allPkUndefC r

def allPkUndefC : Child → Bool
  | .none => true
  | .some t => allPkUndef t

end

/-- Every node strictly below the root has an `undefined` primary key. -/
def subPkUndef : BTree → Bool
  | .node _ _ _ l r => allPkUndefC l && allPkUndefC r

/-! ## Spec-side definitions and concrete inputs -/

/-- Convenience constructor for an object document. -/
def objOf : List (String × Val) → Val :=
  fun l => .obj (l.foldr (fun p acc => .cons p.1 p.2 acc) .nil)

/-- Spec wording for the comparator: the first non-zero field comparison,
else `0`. -/
def firstNonZero : List Int → Int
  | [] => 0
  | x :: rest => if x ≠ 0 then x else firstNonZero rest

/-- Spec wording for value order: `a <= b` under the mixin's
undefined-lowest ordering. -/
def valLE (a b : Val) : Bool :=
  decide (sortAscIgnoreUndefined a b ≤ 0)

/-- Spec wording for the range scan: the brute-force filter predicate
`from <= v <= to`, inclusive on both ends. -/
def inRangeSpec (key : String) (vFrom vTo : Val) (d : Val) : Bool :=
  valLE vFrom (pathGet d key) && valLE (pathGet d key) vTo

/-! ## Scorer characterization and claim C5 -/

/-- Spec wording for the scorer: the keys at the positions (over the index
key list) where the query's field equals the index's field, the full query
length, and the number of such positions. -/
def specMatch (index query : Val) : MatchResult :=
  let idxArr := parseArrIndex index
  let qArr := parseArrQuery query
  let hits := idxArr.enum.filterMap (fun p =>
    if qArr.get? p.1 = some p.2 then qArr.get? p.1 else none)
  { matchedKeys := hits, totalKeyCount := qArr.length, score := hits.length }

def idxABC : Val := objOf [("a", .num 1), ("b", .num 1), ("c", .num 1)]

def qAB : Val := objOf [("a", .num 1), ("b", .num 1)]

def qBC : Val := objOf [("b", .num 1), ("c", .num 1)]

def qAXC : Val := objOf [("a", .num 1), ("x", .num 1), ("c", .num 1)]

def ksAB : List KeyEntry := [⟨"a", 1⟩, ⟨"b", -1⟩]

def dA1B2 : Val := objOf [("a", .num 1), ("b", .num 2)]

def dA1B1 : Val := objOf [("a", .num 1), ("b", .num 1)]

def dA2B5 : Val := objOf [("a", .num 2), ("b", .num 5)]

def dummyTree : BTree := .node .undef [] .undef .none .none

def tC2 : BTree :=
  (buildTree ksAB .undef [dA1B2, dA1B1, dA2B5]).getD dummyTree

def ks1 : List KeyEntry := [⟨"a", 1⟩]

def e1 : Val := objOf [("id", .num 1), ("a", .num 7)]

def e2 : Val := objOf [("id", .num 2), ("a", .num 7)]

def tDup : BTree := (buildTree ks1 (.str "id") [e1, e2]).getD dummyTree

/-! ## Claim C1: removal at a concrete failing input -/

def r0 : Val := objOf [("id", .num 1), ("a", .num 10)]

def m0 : Val := objOf [("id", .num 2), ("a", .num 5)]

def d0 : Val := objOf [("id", .num 3), ("a", .num 3)]

def t0 : BTree := (buildTree ks1 (.str "id") [r0, m0, d0]).getD dummyTree

/-! ## Claim C7: throw behaviour -/

/-- Success test for the `Except`-modelled operations. -/
def exceptOk {α : Type _} : Except String α → Bool
  | .ok _ => true
  | .error _ => false

/-- Runtime-type test: is the value a string? -/
def isStr : Val → Bool
  | .str _ => true
  | _ => false

/-- Runtime-type test: is the value an object? -/
def isObjV : Val → Bool
  | .obj _ => true
  | _ => false

def tMiss : BTree := .node (objOf [("b", .num 1)]) [] .undef .none .none

def tStr : BTree :=
  (buildTree ks1 .undef [objOf [("a", .str "ab")], objOf [("a", .str "ba")]]).getD
    dummyTree

/-! ## Claim C8: prefix scan -/

/-- The string content of a resolved value (used only where the value is
known to be a string). -/
def strVal : Val → String
  | .str s => s
  | _ => ""

/-- Spec wording for the prefix scan: the document's resolved string value
has `v` as a literal prefix (its truncation to `v`'s length equals `v`). -/
def prefMatch (path : String) (v : String) (d : Val) : Bool :=
  decide (strTake (strVal (pathGet d path)) v.length = v)

def ksD : List KeyEntry := [⟨"a", -1⟩]

def sAB : Val := objOf [("a", .str "ab")]

def sB : Val := objOf [("a", .str "b")]

def tD : BTree := (buildTree ksD .undef [sAB, sB]).getD dummyTree

/-! ## Claim C10: the persistence codec

`NodePersist._encode` / `_decode` (under `src/js/lib/NodePersist.js`)
wrap/unwrap payloads with a `json::fdb::` / `raw::fdb::` marker and split
on the literal `'::fdb::'`.  `jStringify` / `jParse` are `Mixin.Common`
helpers not under `src/`; they are modelled from the spec as a JSON
serialiser and parser over `Val` (objects, strings and integer numbers; a
parse failure, where `JSON.parse` would throw, is modelled as an
`undefined` result, which likewise fails to produce the decoded data). -/

/-- JSON string escaping of one character (quote and backslash). -/
def escChar (c : Char) : List Char :=
  if c = '"' ∨ c = '\\' then ['\\', c] else [c]

/-- JSON string escaping. -/
def escStr : List Char → List Char
  | [] => []
  | c :: rest => escChar c ++ escStr rest

/-- Numeric value of a digit character. -/
def dval (c : Char) : Nat := c.toNat - 48

/-- Decimal digits of a natural number, most significant first (the first
argument is fuel, always at least the number itself plus one). -/
def natDigitsAux : Nat → Nat → List Char → List Char
  | 0, _, acc => acc
  | fuel + 1, n, acc =>
    if n < 10 then Nat.digitChar n :: acc
    else natDigitsAux fuel (n / 10) (Nat.digitChar (n % 10) :: acc)

/-- Decimal digits of a natural number. -/
def natDigits (n : Nat) : List Char :=
  natDigitsAux (n + 1) n []

/-- Decimal notation of an integer. -/
def intChars (n : Int) : List Char :=
  if n < 0 then '-' :: natDigits (-n).toNat else natDigits n.toNat

/-- Emptiness test for a field list. -/
def isNilF : Fields → Bool
  | .nil => true
  | .cons _ _ _ => false

mutual

/-- Modelled from the spec: `jStringify` — the JSON text of a value, as
characters (an `undefined` value, which `JSON.stringify` cannot represent
inside this model's scope, prints as `null`). -/
def printVal : Val → List Char
  | .undef => ['n', 'u', 'l', 'l']
  | .num n => intChars n
  | .str s => '"' :: (escStr s.toList ++ ['"'])
  | .obj fs => '{' :: (printFields fs ++ ['}'])

/-- JSON text of an object's field list (without the braces). -/
def printFields : Fields → List Char
  | .nil => []
  | .cons k v rest =>
    '"' :: (escStr k.toList ++ ['"', ':'] ++ printVal v ++
      (if isNilF rest then [] else ',' :: printFields rest))

end

/-- Modelled from the spec: `jStringify` as a string-valued function. -/
def jStringify (v : Val) : String :=
  (printVal v).asString

/-- Reads a run of decimal digits, accumulating their value. -/
def parseDigits : List Char → Nat → Nat × List Char
  | [], acc => (acc, [])
  | c :: rest, acc =>
    if c.isDigit then parseDigits rest (acc * 10 + dval c)
    else (acc, c :: rest)

/-- Reads a JSON string body up to the closing quote, unescaping. -/
def parseStrBody : List Char → Option (List Char × List Char)
  | [] => none
  | c :: rest =>
    if c = '\\' then
      match rest with
      | [] => none
      | e :: rest2 => (parseStrBody rest2).map (fun p => (e :: p.1, p.2))
    else if c = '"' then some ([], rest)
    else (parseStrBody rest).map (fun p => (c :: p.1, p.2))

mutual

/-- Recursive-descent JSON value parser (fuelled; the fuel is spent one
unit per nesting level). -/
def parseV : Nat → List Char → Option (Val × List Char)
  | 0, _ => none
  | fuel + 1, input =>
    match input with
    | [] => none
    | c :: rest =>
      if c = '"' then
        (parseStrBody rest).map (fun p => (Val.str p.1.asString, p.2))
      else if c = '{' then
        match rest with
        | '}' :: rest2 => some (.obj .nil, rest2)
        | _ => (parseFieldsV fuel rest).map (fun p => (Val.obj p.1, p.2))
      else if c = '-' then
        match rest with
        | c2 :: _ =>
          if c2.isDigit then
            let p := parseDigits rest 0
            some (.num (-(p.1 : Int)), p.2)
          else none
        | [] => none
      else if c.isDigit then
        let p := parseDigits (c :: rest) 0
        some (.num ((p.1 : Int)), p.2)
      else none

/-- Parses `"key":value` pairs separated by `,` up to the closing `}`
(which it consumes). -/
def parseFieldsV : Nat → List Char → Option (Fields × List Char)
  | 0, _ => none
  | fuel + 1, input =>
    match input with
    | [] => none
    | c :: rest =>
      if c = '"' then
        match parseStrBody rest with
        | some (k, rest2) =>
          match rest2 with
          | ':' :: rest3 =>
            match parseV fuel rest3 with
            | some (v, rest4) =>
              match rest4 with
              | ',' :: rest5 =>
                (parseFieldsV fuel rest5).map
                  (fun p => (Fields.cons k.asString v p.1, p.2))
              | '}' :: rest5 => some (.cons k.asString v .nil, rest5)
              | _ => none
            | none => none
          | _ => none
        | none => none
      else none

end

/-- Modelled from the spec: `jParse` — parse a complete JSON text, with
`undefined` for a failure (where `JSON.parse` would throw). -/
def jParse (s : String) : Val :=
  match parseV (s.toList.length + 1) s.toList with
  | some (v, []) => v
  | _ => .undef

mutual

/-- Nesting size of a value (a fuel bound for the parser). -/
def sizeV : Val → Nat
  | .obj fs => sizeF fs + 1
  | _ => 1

def sizeF : Fields → Nat
  | .nil => 1
  | .cons _ v rest => sizeV v + sizeF rest + 1

end

mutual

/-- JSON-serializable in this model: no `undefined` anywhere. -/
def wfV : Val → Bool
  | .undef => false
  | .num _ => true
  | .str _ => true
  | .obj fs => wfF fs

def wfF : Fields → Bool
  | .nil => true
  | .cons _ v rest => wfV v && wfF rest

end

/-- Is the head of the remainder a digit?  (`false` required so a number
parse stops exactly at the printed digits.) -/
def noDigitHead : List Char → Bool
  | [] => true
  | c :: _ => !c.isDigit

/-- Scans for the leftmost occurrence of the literal `'::fdb::'`, returning
the text before it and the text after it. -/
def findFdb : List Char → Option (List Char × List Char)
  | ':' :: ':' :: 'f' :: 'd' :: 'b' :: ':' :: ':' :: rest => some ([], rest)
  | c :: rest => (findFdb rest).map (fun p => (c :: p.1, p.2))
  | [] => none

/-- `String.prototype.split('::fdb::')`: repeatedly cut at the leftmost
separator occurrence (fuelled by the input length, which bounds the number
of cuts). -/
def splitFdbF : Nat → List Char → List (List Char)
  | 0, l => [l]
  | fuel + 1, l =>
    match findFdb l with
    | none => [l]
    | some (pre, rest) => pre :: splitFdbF fuel rest

def splitFdb (l : List Char) : List (List Char) :=
  splitFdbF l.length l

/-- The text contains no `'::fdb::'` substring. -/
def fdbFree (l : List Char) : Bool :=
  (findFdb l).isNone

/-- The `meta` object threaded through the persistence steps. -/
structure MetaData where
  foundData : Bool
  rowCount : Val
deriving DecidableEq, Repr

/-- `typeof val === 'object'`. -/
def typeofObject : Val → Bool
  | .obj _ => true
  | _ => false

/-- `data.length`: strings have a length; numbers and plain objects give
`undefined`. -/
def jsLength : Val → Val
  | .str s => .num s.length
  | _ => (.undef)

/-- JS string coercion `'raw::fdb::' + val` of a non-object value. -/
def jsToStr : Val → String
  | .str s => s
  | .num n => (intChars n).asString
  | .undef => "undefined"
  | .obj _ => "[object Object]"

/-- `NodePersist._encode`: objects become `'json::fdb::' + jStringify(val)`,
anything else `'raw::fdb::' + val`; `meta.foundData` reflects the truthiness
of the original value (`meta.rowCount` is left untouched — `undefined` —
when the value is falsy). -/
def encodeStep (val : Val) : Val × MetaData :=
  let data := val
  let val' : Val :=
    if typeofObject val then .str ("json::fdb::" ++ jStringify val)
    else .str ("raw::fdb::" ++ jsToStr val)
  if jsFalsy data then (val', ⟨false, .undef⟩)
  else (val', ⟨true, jsLength data⟩)

/-- `NodePersist._decode`: split the stored string on `'::fdb::'` and
dispatch on `parts[0]` (`'json'` parses `parts[1]`, `'raw'` keeps it, any
other marker leaves the data `undefined`); a missing `parts[1]` is modelled
as the empty text (either way the data comes out falsy).  Calling
`.split` on a truthy non-string throws a `TypeError`. -/
def decodeStep (val : Val) : Except String (Val × MetaData) :=
  if jsFalsy val then .ok (val, ⟨false, .num 0⟩)
  else
    match val with
    | .str s =>
      let parts := splitFdb s.toList
      let data : Val :=
        if parts.getD 0 [] = ['j', 's', 'o', 'n'] then
          jParse (parts.getD 1 []).asString
        else if parts.getD 0 [] = ['r', 'a', 'w'] then
          .str (parts.getD 1 []).asString
        else .undef
      if jsFalsy data then .ok (data, ⟨false, .undef⟩)
      else .ok (data, ⟨true, jsLength data⟩)
    | _ => .error "TypeError: val.split is not a function"


/-! ## Theorems -/

/-! ## Order theory of the comparators

Each field comparator is the three-way comparison pulled back along a sort
key into a linear order (`undefined` at the bottom, the defined values
ordered naturally or dually).  The compound comparator is their
lexicographic combination, and `IsCmp` packages the laws the tree proofs
need. -/

theorem cmp3_eq_neg_one_iff {α : Type _} [LinearOrder α] {a b : α} :
    cmp3 a b = -1 ↔ a < b := by
  unfold cmp3
  split_ifs with h1 h2
  · simp [h1]
  · constructor
    · intro h; norm_num at h
    · intro h; exact absurd h h1
  · constructor
    · intro h; norm_num at h
    · intro h; exact absurd h h1

theorem cmp3_eq_one_iff {α : Type _} [LinearOrder α] {a b : α} :
    cmp3 a b = 1 ↔ b < a := by
  unfold cmp3
  split_ifs with h1 h2
  · constructor
    · intro h; norm_num at h
    · intro h; exact absurd h (lt_asymm h1)
  · simp [h2]
  · constructor
    · intro h; norm_num at h
    · intro h; exact absurd h h2

theorem cmp3_eq_zero_iff {α : Type _} [LinearOrder α] {a b : α} :
    cmp3 a b = 0 ↔ a = b := by
  unfold cmp3
  split_ifs with h1 h2
  · constructor
    · intro h; norm_num at h
    · intro h; subst h; exact absurd h1 (lt_irrefl a)
  · constructor
    · intro h; norm_num at h
    · intro h; subst h; exact absurd h2 (lt_irrefl a)
  · simp [le_antisymm (le_of_not_lt h2) (le_of_not_lt h1)]

theorem cmp3_nonpos_iff {α : Type _} [LinearOrder α] {a b : α} :
    cmp3 a b ≤ 0 ↔ a ≤ b := by
  unfold cmp3
  split_ifs with h1 h2
  · norm_num [le_of_lt h1]
  · constructor
    · intro h; norm_num at h
    · intro h; exact absurd h (not_le_of_lt h2)
  · norm_num [le_of_not_lt h2]

theorem cmp3_flip {α : Type _} [LinearOrder α] (a b : α) :
    cmp3 a b = -(cmp3 b a) := by
  rcases lt_trichotomy a b with h | h | h
  · rw [cmp3_eq_neg_one_iff.mpr h, cmp3_eq_one_iff.mpr h]
  · subst h
    rw [cmp3_eq_zero_iff.mpr rfl]
    norm_num
  · rw [cmp3_eq_one_iff.mpr h, cmp3_eq_neg_one_iff.mpr h]
    norm_num

theorem cmp3_toDual {α : Type _} [LinearOrder α] (a b : α) :
    cmp3 (OrderDual.toDual a) (OrderDual.toDual b) = cmp3 b a := rfl

theorem cmp3_coe {α : Type _} [LinearOrder α] (a b : α) :
    cmp3 (a : WithBot α) (b : WithBot α) = cmp3 a b := by
  unfold cmp3
  simp [WithBot.coe_lt_coe]

theorem cmp3_bot_bot {α : Type _} [LinearOrder α] :
    cmp3 (⊥ : WithBot α) ⊥ = 0 := by
  unfold cmp3
  simp

theorem cmp3_bot_coe {α : Type _} [LinearOrder α] (a : α) :
    cmp3 (⊥ : WithBot α) a = -1 := by
  unfold cmp3
  simp [WithBot.bot_lt_coe]

theorem cmp3_coe_bot {α : Type _} [LinearOrder α] (a : α) :
    cmp3 (a : WithBot α) ⊥ = 1 := by
  unfold cmp3
  simp [WithBot.bot_lt_coe, not_lt_bot]

theorem IsCmp.refl {f : Val → Val → Int} (hf : IsCmp f) (a : Val) :
    f a a = 0 := by
  have := hf.flip a a
  omega

theorem IsCmp.congr {f g : Val → Val → Int} (h : ∀ a b, f a b = g a b)
    (hg : IsCmp g) : IsCmp f := by
  constructor
  · intro a b
    rw [h]
    exact hg.range a b
  · intro a b
    rw [h, h]
    exact hg.flip a b
  · intro a b c h1 h2
    rw [h] at h1 h2 ⊢
    exact hg.eq_trans a b c h1 h2
  · intro a b c h1 h2
    rw [h] at h1 h2 ⊢
    exact hg.le_trans a b c h1 h2
  · intro a b c h1 h2
    rw [h] at h1 h2 ⊢
    exact hg.lt_of_lt_of_le a b c h1 h2
  · intro a b c h1 h2
    rw [h] at h1 h2 ⊢
    exact hg.lt_of_le_of_lt a b c h1 h2

theorem isCmp_cmp3 {α : Type _} [LinearOrder α] (g : Val → α) :
    IsCmp (fun a b => cmp3 (g a) (g b)) := by
  constructor
  · intro a b
    rcases lt_trichotomy (g a) (g b) with h | h | h
    · exact Or.inl (cmp3_eq_neg_one_iff.mpr h)
    · exact Or.inr (Or.inl (cmp3_eq_zero_iff.mpr h))
    · exact Or.inr (Or.inr (cmp3_eq_one_iff.mpr h))
  · intro a b
    exact cmp3_flip (g a) (g b)
  · intro a b c h1 h2
    simp only [cmp3_eq_zero_iff] at h1 h2 ⊢
    exact h1.trans h2
  · intro a b c h1 h2
    simp only [cmp3_nonpos_iff] at h1 h2 ⊢
    exact h1.trans h2
  · intro a b c h1 h2
    simp only [cmp3_eq_neg_one_iff] at h1 ⊢
    simp only [cmp3_nonpos_iff] at h2
    exact lt_of_lt_of_le h1 h2
  · intro a b c h1 h2
    simp only [cmp3_eq_neg_one_iff] at h2 ⊢
    simp only [cmp3_nonpos_iff] at h1
    exact lt_of_le_of_lt h1 h2

theorem isCmp_const_zero : IsCmp (fun _ _ => (0 : Int)) := by
  refine ⟨?_, ?_, ?_, ?_, ?_, ?_⟩ <;> intros <;> omega

theorem strCmp_eq_cmp3 (a b : String) : strCmp a b = cmp3 a b := by
  unfold strCmp cmp3
  simp only [String.lt_iff_toList_lt]

theorem valCmp_eq_cmp3 (a b : Val) (ha : a ≠ .undef) (hb : b ≠ .undef) :
    valCmp a b = cmp3 (valKey a) (valKey b) := by
  cases a <;> cases b <;> try simp at ha hb
  all_goals
    simp [valCmp, valKey, intCmp, strCmp_eq_cmp3, cmp3, Prod.Lex.lt_iff,
      String.lt_iff_toList_lt]

theorem sortAsc_eq_cmp3 (a b : Val) :
    sortAscIgnoreUndefined a b = cmp3 (ascKey a) (ascKey b) := by
  cases a <;> cases b <;>
    simp [sortAscIgnoreUndefined, ascKey,
      cmp3_coe, cmp3_bot_bot, cmp3_bot_coe, cmp3_coe_bot] <;>
    rw [valCmp_eq_cmp3] <;> simp

theorem sortDesc_eq_cmp3 (a b : Val) :
    sortDescIgnoreUndefined a b = cmp3 (descKey a) (descKey b) := by
  have h : ∀ x y : SKey,
      cmp3 ((OrderDual.toDual x : SKeyᵒᵈ) : WithBot SKeyᵒᵈ)
        ((OrderDual.toDual y : SKeyᵒᵈ) : WithBot SKeyᵒᵈ) = -(cmp3 x y) := by
    intro x y
    rw [cmp3_coe, cmp3_toDual]
    exact cmp3_flip y x
  cases a <;> cases b <;>
    simp [sortDescIgnoreUndefined, descKey, h,
      cmp3_bot_bot, cmp3_bot_coe, cmp3_coe_bot] <;>
    rw [valCmp_eq_cmp3] <;> simp

theorem isCmp_fieldCmp (k : KeyEntry) : IsCmp (fieldCmp k) := by
  by_cases h1 : k.value = 1
  · refine IsCmp.congr (g := fun a b =>
      cmp3 (ascKey (pathGet a k.path)) (ascKey (pathGet b k.path))) ?_ ?_
    · intro a b
      simp [fieldCmp, h1, sortAsc_eq_cmp3]
    · exact isCmp_cmp3 (fun v => ascKey (pathGet v k.path))
  · by_cases h2 : k.value = -1
    · refine IsCmp.congr (g := fun a b =>
        cmp3 (descKey (pathGet a k.path)) (descKey (pathGet b k.path))) ?_ ?_
      · intro a b
        simp [fieldCmp, h1, h2, sortDesc_eq_cmp3]
      · exact isCmp_cmp3 (fun v => descKey (pathGet v k.path))
    · refine IsCmp.congr (g := fun _ _ => (0 : Int)) ?_ isCmp_const_zero
      intro a b
      simp [fieldCmp, h1, h2]

theorem lexCmp_eq_of_ne {f g : Val → Val → Int} {a b : Val}
    (h : f a b ≠ 0) : lexCmp f g a b = f a b := if_pos h

theorem lexCmp_eq_of_eq {f g : Val → Val → Int} {a b : Val}
    (h : f a b = 0) : lexCmp f g a b = g a b := by
  simp [lexCmp, h]

/-- Lexicographic combination preserves the comparator laws. -/
theorem isCmp_lex {f g : Val → Val → Int} (hf : IsCmp f) (hg : IsCmp g) :
    IsCmp (lexCmp f g) := by
  constructor
  · intro a b
    by_cases h : f a b = 0
    · rw [lexCmp_eq_of_eq h]
      exact hg.range a b
    · rw [lexCmp_eq_of_ne h]
      exact hf.range a b
  · intro a b
    have hfl := hf.flip a b
    by_cases h : f a b = 0
    · have hba : f b a = 0 := by omega
      rw [lexCmp_eq_of_eq h, lexCmp_eq_of_eq hba]
      exact hg.flip a b
    · have hba : f b a ≠ 0 := by omega
      rw [lexCmp_eq_of_ne h, lexCmp_eq_of_ne hba]
      exact hfl
  · intro a b c h1 h2
    have hab : f a b = 0 := by
      by_contra h
      rw [lexCmp_eq_of_ne h] at h1
      exact h h1
    have hbc : f b c = 0 := by
      by_contra h
      rw [lexCmp_eq_of_ne h] at h2
      exact h h2
    rw [lexCmp_eq_of_eq hab] at h1
    rw [lexCmp_eq_of_eq hbc] at h2
    rw [lexCmp_eq_of_eq (hf.eq_trans a b c hab hbc)]
    exact hg.eq_trans a b c h1 h2
  · intro a b c h1 h2
    rcases hf.range a b with hab | hab | hab
    · rcases hf.range b c with hbc | hbc | hbc
      · have hac := hf.lt_of_lt_of_le a b c hab (by omega)
        rw [lexCmp_eq_of_ne (by omega)]
        omega
      · have hac := hf.lt_of_lt_of_le a b c hab (by omega)
        rw [lexCmp_eq_of_ne (by omega)]
        omega
      · rw [lexCmp_eq_of_ne (by omega)] at h2
        omega
    · rw [lexCmp_eq_of_eq hab] at h1
      rcases hf.range b c with hbc | hbc | hbc
      · have hac := hf.lt_of_le_of_lt a b c (by omega) hbc
        rw [lexCmp_eq_of_ne (by omega)]
        omega
      · rw [lexCmp_eq_of_eq hbc] at h2
        rw [lexCmp_eq_of_eq (hf.eq_trans a b c hab hbc)]
        exact hg.le_trans a b c h1 h2
      · rw [lexCmp_eq_of_ne (by omega)] at h2
        omega
    · rw [lexCmp_eq_of_ne (by omega)] at h1
      omega
  · intro a b c h1 h2
    by_cases hab : f a b = 0
    · rw [lexCmp_eq_of_eq hab] at h1
      rcases hf.range b c with hbc | hbc | hbc
      · have hac := hf.lt_of_le_of_lt a b c (by omega) hbc
        rw [lexCmp_eq_of_ne (by omega)]
        exact hac
      · rw [lexCmp_eq_of_eq hbc] at h2
        rw [lexCmp_eq_of_eq (hf.eq_trans a b c hab hbc)]
        exact hg.lt_of_lt_of_le a b c h1 h2
      · rw [lexCmp_eq_of_ne (by omega)] at h2
        omega
    · rw [lexCmp_eq_of_ne hab] at h1
      rcases hf.range b c with hbc | hbc | hbc
      · have hac := hf.lt_of_lt_of_le a b c h1 (by omega)
        rw [lexCmp_eq_of_ne (by omega)]
        exact hac
      · have hac := hf.lt_of_lt_of_le a b c h1 (by omega)
        rw [lexCmp_eq_of_ne (by omega)]
        exact hac
      · rw [lexCmp_eq_of_ne (by omega)] at h2
        omega
  · intro a b c h1 h2
    by_cases hbc : f b c = 0
    · rw [lexCmp_eq_of_eq hbc] at h2
      by_cases hab : f a b = 0
      · rw [lexCmp_eq_of_eq hab] at h1
        rw [lexCmp_eq_of_eq (hf.eq_trans a b c hab hbc)]
        exact hg.lt_of_le_of_lt a b c h1 h2
      · rw [lexCmp_eq_of_ne hab] at h1
        rcases hf.range a b with h | h | h
        · have hac := hf.lt_of_lt_of_le a b c h (by omega)
          rw [lexCmp_eq_of_ne (by omega)]
          exact hac
        · exact absurd h hab
        · omega
    · rw [lexCmp_eq_of_ne hbc] at h2
      by_cases hab : f a b = 0
      · rw [lexCmp_eq_of_eq hab] at h1
        have hac := hf.lt_of_le_of_lt a b c (by omega) h2
        rw [lexCmp_eq_of_ne (by omega)]
        exact hac
      · rw [lexCmp_eq_of_ne hab] at h1
        have hr := hf.range a b
        have hac := hf.lt_of_lt_of_le a b c (by omega) (by omega)
        rw [lexCmp_eq_of_ne (by omega)]
        exact hac

/-- Unfolding of the comparator loop: the head field decides unless it
compares equal (the carried `result` is `0` on every entry). -/
theorem compareFunc_cons (k : KeyEntry) (rest : List KeyEntry) (a b : Val) :
    compareFunc (k :: rest) a b = lexCmp (fieldCmp k) (compareFunc rest) a b := by
  by_cases h1 : k.value = 1
  · simp only [compareFunc, compareFuncFrom, lexCmp, fieldCmp, h1, if_true]
    by_cases hA :
        sortAscIgnoreUndefined (pathGet a k.path) (pathGet b k.path) = 0 <;>
      simp [hA]
  · by_cases h2 : k.value = -1
    · simp only [compareFunc, compareFuncFrom, lexCmp, fieldCmp, h1, h2,
        if_true, if_false]
      by_cases hB :
          sortDescIgnoreUndefined (pathGet a k.path) (pathGet b k.path) = 0 <;>
        simp [hB, h1]
    · simp [compareFunc, compareFuncFrom, lexCmp, fieldCmp, h1, h2]

theorem isCmp_compareFunc (ks : List KeyEntry) : IsCmp (compareFunc ks) := by
  induction ks with
  | nil => exact IsCmp.congr (fun a b => rfl) isCmp_const_zero
  | cons k rest ih =>
      exact IsCmp.congr (fun a b => compareFunc_cons k rest a b)
        (isCmp_lex (isCmp_fieldCmp k) ih)

/-! ## Tree invariants -/

theorem inOrderData_node (D : Val) (s : List Val) (pk : Val) (l r : Child) :
    inOrderData (.node D s pk l r) = childDocs l ++ [D] ++ childDocs r := by
  cases l <;> cases r <;> rfl


theorem truthyAll_data {D : Val} {s : List Val} {pk : Val} {l r : Child}
    (h : truthyAll (.node D s pk l r)) : jsFalsy D = false := by
  refine h D ?_
  simp [inOrderData_node]

theorem truthyAll_left {D : Val} {s : List Val} {pk : Val} {lt : BTree}
    {r : Child} (h : truthyAll (.node D s pk (.some lt) r)) : truthyAll lt := by
  intro x hx
  refine h x ?_
  simp [inOrderData_node, childDocs, hx]

theorem truthyAll_right {D : Val} {s : List Val} {pk : Val} {l : Child}
    {rt : BTree} (h : truthyAll (.node D s pk l (.some rt))) :
    truthyAll rt := by
  intro x hx
  refine h x ?_
  simp [inOrderData_node, childDocs, hx]

theorem mem_insert (ks : List KeyEntry) :
    ∀ (t : BTree), truthyAll t → ∀ (d x : Val),
      (x ∈ inOrderData (insert ks t d) ↔ x ∈ inOrderData t ∨ x = d)
  | .node D s pk l r, ht, d, x => by
    have hD : jsFalsy D = false := truthyAll_data ht
    rcases (isCmp_compareFunc ks).range D d with hc | hc | hc
    · cases r with
      | none =>
          simp [FDB.insert, insertChild, hD, hc, inOrderData, childDocs]
          tauto
      | some rt =>
          have ih := mem_insert ks rt (truthyAll_right ht) d x
          simp [FDB.insert, insertChild, hD, hc, inOrderData, childDocs, ih]
          tauto
    · cases l with
      | none =>
          simp [FDB.insert, insertChild, hD, hc, inOrderData, childDocs]
          tauto
      | some lt =>
          have ih := mem_insert ks lt (truthyAll_left ht) d x
          simp [FDB.insert, insertChild, hD, hc, inOrderData, childDocs, ih]
          tauto
    · cases l with
      | none =>
          simp [FDB.insert, insertChild, hD, hc, inOrderData, childDocs]
          tauto
      | some lt =>
          have ih := mem_insert ks lt (truthyAll_left ht) d x
          simp [FDB.insert, insertChild, hD, hc, inOrderData, childDocs, ih]
          tauto

theorem truthyAll_insert (ks : List KeyEntry) (t : BTree) (d : Val)
    (ht : truthyAll t) (hd : jsFalsy d = false) :
    truthyAll (insert ks t d) := by
  intro x hx
  rw [mem_insert ks t ht d x] at hx
  rcases hx with hx | rfl
  · exact ht x hx
  · exact hd

theorem WF_node {ks : List KeyEntry} {D : Val} {s : List Val} {pk : Val}
    {l r : Child} :
    WF ks (.node D s pk l r) ↔
      (∀ x ∈ childDocs l, compareFunc ks D x = 0 ∨ compareFunc ks D x = 1) ∧
      (∀ y ∈ childDocs r, compareFunc ks D y = -1) ∧
      WFc ks l ∧ WFc ks r := by
  rw [WF]

theorem WFc_some {ks : List KeyEntry} {t : BTree} :
    WFc ks (.some t) ↔ WF ks t := by
  rw [WFc]

theorem WFc_none {ks : List KeyEntry} : WFc ks .none := by
  rw [WFc]
  trivial

theorem WF_leaf (ks : List KeyEntry) (d : Val) (s : List Val) (pk : Val) :
    WF ks (.node d s pk .none .none) := by
  rw [WF_node]
  exact ⟨fun x hx => by simp [childDocs] at hx,
    fun y hy => by simp [childDocs] at hy, WFc_none, WFc_none⟩

theorem insert_eq_left_eq (ks : List KeyEntry) {D : Val} {s : List Val}
    {pk : Val} {l r : Child} {d : Val} (hD : jsFalsy D = false)
    (hc : compareFunc ks D d = 0) :
    insert ks (.node D s pk l r) d = .node D s pk (insertChild ks l d) r := by
  simp [FDB.insert, hD, hc]

theorem insert_eq_right (ks : List KeyEntry) {D : Val} {s : List Val}
    {pk : Val} {l r : Child} {d : Val} (hD : jsFalsy D = false)
    (hc : compareFunc ks D d = -1) :
    insert ks (.node D s pk l r) d = .node D s pk l (insertChild ks r d) := by
  simp [FDB.insert, hD, hc]

theorem insert_eq_left_lt (ks : List KeyEntry) {D : Val} {s : List Val}
    {pk : Val} {l r : Child} {d : Val} (hD : jsFalsy D = false)
    (hc : compareFunc ks D d = 1) :
    insert ks (.node D s pk l r) d = .node D s pk (insertChild ks l d) r := by
  simp [FDB.insert, hD, hc]

theorem mem_insertChild (ks : List KeyEntry) (c : Child)
    (hc : ∀ t, c = .some t → truthyAll t) (d x : Val) :
    x ∈ childDocs (insertChild ks c d) ↔ x ∈ childDocs c ∨ x = d := by
  cases c with
  | none => simp [insertChild, childDocs, inOrderData]
  | some t =>
      simp [insertChild, childDocs, mem_insert ks t (hc t rfl) d x]

theorem WF_insert (ks : List KeyEntry) :
    ∀ (t : BTree), truthyAll t → WF ks t → ∀ (d : Val),
      WF ks (insert ks t d)
  | .node D s pk l r, ht, hw, d => by
    rw [WF_node] at hw
    obtain ⟨hwl, hwr, hcl, hcr⟩ := hw
    have hD : jsFalsy D = false := truthyAll_data ht
    have memL : ∀ x, x ∈ childDocs (insertChild ks l d) ↔
        x ∈ childDocs l ∨ x = d := fun x =>
      mem_insertChild ks l
        (fun t htt => by rw [htt] at ht; exact truthyAll_left ht) d x
    have memR : ∀ y, y ∈ childDocs (insertChild ks r d) ↔
        y ∈ childDocs r ∨ y = d := fun y =>
      mem_insertChild ks r
        (fun t htt => by rw [htt] at ht; exact truthyAll_right ht) d y
    have wfcL : WFc ks (insertChild ks l d) := by
      cases l with
      | none =>
          rw [insertChild, WFc_some]
          exact WF_leaf ks d [] .undef
      | some lt =>
          rw [insertChild, WFc_some]
          exact WF_insert ks lt (truthyAll_left ht) (WFc_some.mp hcl) d
    have wfcR : WFc ks (insertChild ks r d) := by
      cases r with
      | none =>
          rw [insertChild, WFc_some]
          exact WF_leaf ks d [] .undef
      | some rt =>
          rw [insertChild, WFc_some]
          exact WF_insert ks rt (truthyAll_right ht) (WFc_some.mp hcr) d
    rcases (isCmp_compareFunc ks).range D d with hc | hc | hc
    · rw [insert_eq_right ks hD hc, WF_node]
      refine ⟨hwl, ?_, hcl, wfcR⟩
      intro y hy
      rcases (memR y).mp hy with hy | rfl
      · exact hwr y hy
      · exact hc
    · rw [insert_eq_left_eq ks hD hc, WF_node]
      refine ⟨?_, hwr, wfcL, hcr⟩
      intro x hx
      rcases (memL x).mp hx with hx | rfl
      · exact hwl x hx
      · exact Or.inl hc
    · rw [insert_eq_left_lt ks hD hc, WF_node]
      refine ⟨?_, hwr, wfcL, hcr⟩
      intro x hx
      rcases (memL x).mp hx with hx | rfl
      · exact hwl x hx
      · exact Or.inr hc

theorem sorted_of_WF (ks : List KeyEntry) :
    ∀ (t : BTree), WF ks t →
      List.Pairwise (fun x y => compareFunc ks x y ≠ 1) (inOrderData t)
  | .node D s pk l r, hw => by
    rw [WF_node] at hw
    obtain ⟨hwl, hwr, hcl, hcr⟩ := hw
    have hC := isCmp_compareFunc ks
    have IHl : List.Pairwise (fun x y => compareFunc ks x y ≠ 1)
        (childDocs l) := by
      cases l with
      | none => simp [childDocs]
      | some lt => exact sorted_of_WF ks lt (WFc_some.mp hcl)
    have IHr : List.Pairwise (fun x y => compareFunc ks x y ≠ 1)
        (childDocs r) := by
      cases r with
      | none => simp [childDocs]
      | some rt => exact sorted_of_WF ks rt (WFc_some.mp hcr)
    rw [inOrderData]
    refine List.pairwise_append.mpr
      ⟨List.pairwise_append.mpr ⟨IHl, ?_, ?_⟩, IHr, ?_⟩
    · simp
    · intro x hx y hy
      simp only [List.mem_singleton] at hy
      have h1 := hwl x hx
      have hf := hC.flip D x
      rw [hy]
      omega
    · intro a ha b hb
      rcases List.mem_append.mp ha with ha | ha
      · have h1 := hwl a ha
        have hf := hC.flip D a
        have h2 := hwr b hb
        have h3 := hC.lt_of_le_of_lt a D b (by omega) h2
        omega
      · simp only [List.mem_singleton] at ha
        have h2 := hwr b hb
        rw [ha]
        omega

theorem lookup_node (ks : List KeyEntry) (D : Val) (s : List Val) (pk : Val)
    (l r : Child) (d : Val) :
    lookup ks (.node D s pk l r) d =
      (let result := compareFunc ks D d
       if result = 0 then lookupC ks l d ++ [D] ++ lookupC ks r d
       else if result = -1 then lookupC ks r d
       else if result = 1 then lookupC ks l d
       else []) := by
  rw [lookup]

theorem lookup_complete (ks : List KeyEntry) :
    ∀ (t : BTree), WF ks t → ∀ (x d : Val), x ∈ inOrderData t →
      compareFunc ks x d = 0 → x ∈ lookup ks t d
  | .node D s pk l r, hw, x, d, hx, hxd => by
    rw [WF_node] at hw
    obtain ⟨hwl, hwr, hcl, hcr⟩ := hw
    have hC := isCmp_compareFunc ks
    rw [inOrderData] at hx
    rw [lookup_node]
    rcases List.mem_append.mp hx with hx' | hxr
    · rcases List.mem_append.mp hx' with hxl | hxD
      · -- x is in the left subtree: the comparator sends lookup left
        have h1 := hwl x hxl
        have hres : compareFunc ks D d = 0 ∨ compareFunc ks D d = 1 := by
          rcases h1 with h1 | h1
          · exact Or.inl (hC.eq_trans D x d h1 hxd)
          · have hfx := hC.flip D x
            have hfd := hC.flip x d
            have h3 := hC.lt_of_le_of_lt d x D (by omega) (by omega)
            have hf2 := hC.flip D d
            omega
        obtain ⟨lt, rfl⟩ : ∃ lt, l = .some lt := by
          cases l with
          | none => simp [childDocs] at hxl
          | some lt => exact ⟨lt, rfl⟩
        have ih := lookup_complete ks lt (WFc_some.mp hcl) x d hxl hxd
        rcases hres with hres | hres
        · simp only [hres, if_true]
          simp [lookupC, ih]
        · simp only [hres]
          norm_num
          simp [lookupC, ih]
      · -- x is this node's payload
        simp only [List.mem_singleton] at hxD
        subst hxD
        simp only [hxd, if_true]
        simp
    · -- x is in the right subtree
      have h2 := hwr x hxr
      have hres : compareFunc ks D d = -1 :=
        hC.lt_of_lt_of_le D x d h2 (by omega)
      obtain ⟨rt, rfl⟩ : ∃ rt, r = .some rt := by
        cases r with
        | none => simp [childDocs] at hxr
        | some rt => exact ⟨rt, rfl⟩
      have ih := lookup_complete ks rt (WFc_some.mp hcr) x d hxr hxd
      simp only [hres]
      norm_num
      simp [lookupC, ih]

theorem foldl_insert_mem (ks : List KeyEntry) :
    ∀ (ds : List Val) (t : BTree), truthyAll t →
      (∀ d ∈ ds, jsFalsy d = false) → ∀ x,
      (x ∈ inOrderData (ds.foldl (insert ks) t) ↔
        x ∈ inOrderData t ∨ x ∈ ds)
  | [], t, ht, hds, x => by simp
  | d :: ds, t, ht, hds, x => by
      have ht' := truthyAll_insert ks t d ht (hds d (by simp))
      rw [List.foldl_cons,
        foldl_insert_mem ks ds (insert ks t d) ht'
          (fun e he => hds e (by simp [he])) x,
        mem_insert ks t ht d x]
      simp only [List.mem_cons]
      tauto

theorem foldl_insert_truthy (ks : List KeyEntry) :
    ∀ (ds : List Val) (t : BTree), truthyAll t →
      (∀ d ∈ ds, jsFalsy d = false) →
      truthyAll (ds.foldl (insert ks) t)
  | [], t, ht, _ => ht
  | d :: ds, t, ht, hds => by
      rw [List.foldl_cons]
      exact foldl_insert_truthy ks ds (insert ks t d)
        (truthyAll_insert ks t d ht (hds d (by simp)))
        (fun e he => hds e (by simp [he]))

theorem foldl_insert_WF (ks : List KeyEntry) :
    ∀ (ds : List Val) (t : BTree), truthyAll t → WF ks t →
      (∀ d ∈ ds, jsFalsy d = false) →
      WF ks (ds.foldl (insert ks) t)
  | [], t, _, hw, _ => hw
  | d :: ds, t, ht, hw, hds => by
      rw [List.foldl_cons]
      exact foldl_insert_WF ks ds (insert ks t d)
        (truthyAll_insert ks t d ht (hds d (by simp)))
        (WF_insert ks t ht hw d)
        (fun e he => hds e (by simp [he]))

theorem allPkUndef_insert (ks : List KeyEntry) :
    ∀ (t : BTree), allPkUndef t = true → ∀ (d : Val),
      allPkUndef (insert ks t d) = true
  | .node D s pk l r, hp, d => by
    rw [allPkUndef] at hp
    simp only [Bool.and_eq_true, decide_eq_true_eq] at hp
    obtain ⟨⟨hpk, hpl⟩, hpr⟩ := hp
    have hchildL : allPkUndefC (insertChild ks l d) = true := by
      cases l with
      | none =>
          rw [insertChild, allPkUndefC, allPkUndef]
          simp [allPkUndefC]
      | some lt =>
          rw [insertChild, allPkUndefC]
          exact allPkUndef_insert ks lt (by rwa [allPkUndefC] at hpl) d
    have hchildR : allPkUndefC (insertChild ks r d) = true := by
      cases r with
      | none =>
          rw [insertChild, allPkUndefC, allPkUndef]
          simp [allPkUndefC]
      | some rt =>
          rw [insertChild, allPkUndefC]
          exact allPkUndef_insert ks rt (by rwa [allPkUndefC] at hpr) d
    by_cases hD : jsFalsy D = true
    · simp only [FDB.insert, hD, if_true]
      rw [allPkUndef]
      simp [hpk, hpl, hpr]
    · rcases (isCmp_compareFunc ks).range D d with hc | hc | hc
      · rw [insert_eq_right ks (by simpa using hD) hc, allPkUndef]
        simp [hpk, hpl, hchildR]
      · rw [insert_eq_left_eq ks (by simpa using hD) hc, allPkUndef]
        simp [hpk, hpr, hchildL]
      · rw [insert_eq_left_lt ks (by simpa using hD) hc, allPkUndef]
        simp [hpk, hpr, hchildL]

theorem subPkUndef_insert (ks : List KeyEntry) (t : BTree)
    (hp : subPkUndef t = true) (d : Val) :
    subPkUndef (insert ks t d) = true := by
  obtain ⟨D, s, pk, l, r⟩ := t
  rw [subPkUndef] at hp
  simp only [Bool.and_eq_true] at hp
  obtain ⟨hpl, hpr⟩ := hp
  have hchild : ∀ (c : Child), allPkUndefC c = true →
      allPkUndefC (insertChild ks c d) = true := by
    intro c hcu
    cases c with
    | none =>
        rw [insertChild, allPkUndefC, allPkUndef]
        simp [allPkUndefC]
    | some t =>
        rw [insertChild, allPkUndefC]
        exact allPkUndef_insert ks t (by rwa [allPkUndefC] at hcu) d
  by_cases hD : jsFalsy D = true
  · simp only [FDB.insert, hD, if_true]
    rw [subPkUndef]
    simp [hpl, hpr]
  · rcases (isCmp_compareFunc ks).range D d with hc | hc | hc
    · rw [insert_eq_right ks (by simpa using hD) hc, subPkUndef]
      simp [hpl, hchild r hpr]
    · rw [insert_eq_left_eq ks (by simpa using hD) hc, subPkUndef]
      simp [hpr, hchild l hpl]
    · rw [insert_eq_left_lt ks (by simpa using hD) hc, subPkUndef]
      simp [hpr, hchild l hpl]

theorem subPkUndef_foldl (ks : List KeyEntry) :
    ∀ (ds : List Val) (t : BTree), subPkUndef t = true →
      subPkUndef (ds.foldl (insert ks) t) = true
  | [], t, hp => hp
  | d :: ds, t, hp => by
      rw [List.foldl_cons]
      exact subPkUndef_foldl ks ds (insert ks t d)
        (subPkUndef_insert ks t hp d)

/-- Trees built by seeding a root and inserting have an `undefined`
primary key at every non-root node. -/
theorem buildTree_subPkUndef (ks : List KeyEntry) (pkv : Val)
    (ds : List Val) (t : BTree) (h : buildTree ks pkv ds = some t) :
    subPkUndef t = true := by
  cases ds with
  | nil => simp [buildTree] at h
  | cons d rest =>
      rw [buildTree, Option.some_inj] at h
      subst h
      refine subPkUndef_foldl ks rest _ ?_
      rw [subPkUndef]
      simp [allPkUndefC]

theorem sortAsc_flip (a b : Val) :
    sortAscIgnoreUndefined a b = -(sortAscIgnoreUndefined b a) := by
  rw [sortAsc_eq_cmp3, sortAsc_eq_cmp3]
  exact cmp3_flip _ _

theorem sortAsc_range (a b : Val) :
    sortAscIgnoreUndefined a b = -1 ∨ sortAscIgnoreUndefined a b = 0 ∨
      sortAscIgnoreUndefined a b = 1 := by
  rw [sortAsc_eq_cmp3]
  exact (isCmp_cmp3 ascKey).range a b

theorem range_cond_iff (v lo hi : Val) :
    ((sortAscIgnoreUndefined v lo = 0 ∨ sortAscIgnoreUndefined v lo = 1) ∧
      (sortAscIgnoreUndefined v hi = 0 ∨ sortAscIgnoreUndefined v hi = -1)) ↔
    (sortAscIgnoreUndefined lo v ≤ 0 ∧ sortAscIgnoreUndefined v hi ≤ 0) := by
  have h1 := sortAsc_flip v lo
  have h2 := sortAsc_range v lo
  have h3 := sortAsc_range v hi
  omega

theorem findRange_filter (key : String) (vFrom vTo : Val) :
    ∀ (t : BTree), findRangeData key vFrom vTo t =
      (inOrderData t).filter (inRangeSpec key vFrom vTo)
  | .node D s pk l r => by
    have hl : findRangeC key vFrom vTo l =
        (childDocs l).filter (inRangeSpec key vFrom vTo) := by
      cases l with
      | none => rfl
      | some lt =>
          rw [findRangeC, childDocs]
          exact findRange_filter key vFrom vTo lt
    have hr : findRangeC key vFrom vTo r =
        (childDocs r).filter (inRangeSpec key vFrom vTo) := by
      cases r with
      | none => rfl
      | some rt =>
          rw [findRangeC, childDocs]
          exact findRange_filter key vFrom vTo rt
    rw [findRangeData, inOrderData]
    rw [List.filter_append, List.filter_append, hl, hr]
    have hmid : (if (sortAscIgnoreUndefined (pathGet D key) vFrom = 0 ∨
          sortAscIgnoreUndefined (pathGet D key) vFrom = 1) ∧
          (sortAscIgnoreUndefined (pathGet D key) vTo = 0 ∨
          sortAscIgnoreUndefined (pathGet D key) vTo = -1)
        then [D] else []) =
        List.filter (inRangeSpec key vFrom vTo) [D] := by
      have hiff := range_cond_iff (pathGet D key) vFrom vTo
      by_cases h : inRangeSpec key vFrom vTo D = true
      · rw [if_pos (hiff.mpr (by simpa [inRangeSpec, valLE] using h))]
        simp [List.filter_cons, h]
      · rw [if_neg (fun hc =>
          h (by simpa [inRangeSpec, valLE] using hiff.mp hc))]
        simp only [Bool.not_eq_true] at h
        simp [List.filter_cons, h]
    rw [hmid]

/-- C9: `findRange` visits both children unconditionally and returns
exactly the documents whose resolved field value lies within the inclusive
bounds — the same list a brute-force filter over the in-order document
dump produces, for every tree, field path and bounds. -/
theorem C9_findRange_equals_linear_filter :
    ∀ (key : String) (vFrom vTo : Val) (t : BTree),
      findRangeData key vFrom vTo t =
        (inOrderData t).filter (inRangeSpec key vFrom vTo) :=
  fun key vFrom vTo t => findRange_filter key vFrom vTo t

/-- C6: the compound comparator evaluates fields in specification order
and returns the first non-zero field comparison (`0` when every field
compares equal); per field, two `undefined` values compare equal, a
defined value sorts greater than an `undefined` one regardless of the
direction, and two defined values compare by natural ordering, negated
for a descending field. -/
theorem C6_compound_comparator :
    (∀ (ks : List KeyEntry) (a b : Val),
      compareFunc ks a b =
        firstNonZero (ks.map (fun k => fieldCmp k a b))) ∧
    (sortAscIgnoreUndefined .undef .undef = 0 ∧
      sortDescIgnoreUndefined .undef .undef = 0) ∧
    (∀ v : Val, v ≠ .undef →
      sortAscIgnoreUndefined v .undef = 1 ∧
      sortDescIgnoreUndefined v .undef = 1 ∧
      sortAscIgnoreUndefined .undef v = -1 ∧
      sortDescIgnoreUndefined .undef v = -1) ∧
    (∀ v w : Val, v ≠ .undef → w ≠ .undef →
      sortAscIgnoreUndefined v w = valCmp v w ∧
      sortDescIgnoreUndefined v w = -(valCmp v w)) := by
  refine ⟨?_, ⟨rfl, rfl⟩, ?_, ?_⟩
  · intro ks
    induction ks with
    | nil => intro a b; rfl
    | cons k rest ih =>
        intro a b
        rw [compareFunc_cons, List.map_cons, firstNonZero, lexCmp, ih a b]
  · intro v hv
    cases v <;> simp_all [sortAscIgnoreUndefined, sortDescIgnoreUndefined]
  · intro v w hv hw
    cases v <;> cases w <;>
      simp_all [sortAscIgnoreUndefined, sortDescIgnoreUndefined]

/-- Closed instances of `C6_compound_comparator` discharging its
hypotheses at concrete values. -/
theorem C6_compound_comparator_witness :
    (compareFunc [⟨"a", 1⟩, ⟨"b", -1⟩] (objOf [("a", .num 1)])
        (objOf [("a", .num 2)]) =
      firstNonZero
        (([⟨"a", 1⟩, ⟨"b", -1⟩] : List KeyEntry).map
          (fun k => fieldCmp k (objOf [("a", .num 1)])
            (objOf [("a", .num 2)])))) ∧
    ((Val.num 3) ≠ Val.undef ∧ sortAscIgnoreUndefined (.num 3) .undef = 1) ∧
    ((Val.num 3) ≠ Val.undef ∧ (Val.str "x") ≠ Val.undef ∧
      sortDescIgnoreUndefined (.num 3) (.str "x") =
        -(valCmp (.num 3) (.str "x"))) :=
  ⟨C6_compound_comparator.1 [⟨"a", 1⟩, ⟨"b", -1⟩] (objOf [("a", .num 1)])
      (objOf [("a", .num 2)]),
    ⟨by decide, (C6_compound_comparator.2.2.1 (.num 3) (by decide)).1⟩,
    ⟨by decide, by decide,
      (C6_compound_comparator.2.2.2 (.num 3) (.str "x") (by decide)
        (by decide)).2⟩⟩

theorem matchLoop_spec (qArr : List String) :
    ∀ (idxArr : List String) (i : Nat),
      matchLoop qArr idxArr i =
        ((List.enumFrom i idxArr).filterMap (fun p =>
            if qArr.get? p.1 = some p.2 then qArr.get? p.1 else none),
          ((List.enumFrom i idxArr).filterMap (fun p =>
            if qArr.get? p.1 = some p.2 then qArr.get? p.1 else none)).length)
  | [], _ => rfl
  | k :: rest, i => by
      rw [matchLoop, matchLoop_spec qArr rest (i + 1), List.enumFrom_cons,
        List.filterMap_cons]
      simp only [List.get?_eq_getElem?]
      by_cases h : qArr.get? i = some k
      · simp only [List.get?_eq_getElem?] at h
        simp [h]
      · simp only [List.get?_eq_getElem?] at h
        simp [h]

/-- C5 counterexample: for index `[a, b, c]` and query `[a, x, c]` the
position-1 mismatch does not stop the loop — position 2 still matches, so
the score is `2` and `matchedKeys` is the non-contiguous `["a", "c"]`,
where the claim's stop-at-first-mismatch rule demands score `1` and
`matchedKeys = ["a"]`. -/
theorem C5_match_counterexample :
    (matchIndex idxABC qAXC).score = 2 ∧
    (matchIndex idxABC qAXC).matchedKeys = ["a", "c"] := by
  decide

/-- C5 amended: `match` counts and collects every index position whose
query field equals the index field at the same position — it does not stop
at the first mismatch — while `totalKeyCount` is the full parsed query
length; the claim's two concrete examples (`[a, b]` scores `2` with keys
`[a, b]`, `[b, c]` scores `0`) do hold. -/
theorem C5_match_positional :
    (∀ (index query : Val), matchIndex index query = specMatch index query) ∧
    matchIndex idxABC qAB =
      { matchedKeys := ["a", "b"], totalKeyCount := 2, score := 2 } ∧
    matchIndex idxABC qBC =
      { matchedKeys := [], totalKeyCount := 2, score := 0 } := by
  refine ⟨?_, by decide, by decide⟩
  intro index query
  rw [matchIndex, specMatch, matchLoop_spec]
  rfl

/-! ## Built trees and claims C2, C3, C4 -/

theorem buildTree_props (ks : List KeyEntry) (pkv : Val) (ds : List Val)
    (t : BTree) (h : buildTree ks pkv ds = some t)
    (hds : ∀ d ∈ ds, jsFalsy d = false) :
    WF ks t ∧ truthyAll t ∧ (∀ x, x ∈ inOrderData t ↔ x ∈ ds) := by
  cases ds with
  | nil => simp [buildTree] at h
  | cons d rest =>
      rw [buildTree, Option.some_inj] at h
      subst h
      have hroot_t : truthyAll (.node d [] pkv .none .none) := by
        intro x hx
        simp [inOrderData, childDocs] at hx
        rw [hx]
        exact hds d (by simp)
      have hrest : ∀ e ∈ rest, jsFalsy e = false :=
        fun e he => hds e (by simp [he])
      refine ⟨foldl_insert_WF ks rest _ hroot_t (WF_leaf ks d [] pkv) hrest,
        foldl_insert_truthy ks rest _ hroot_t hrest, ?_⟩
      intro x
      rw [foldl_insert_mem ks rest _ hroot_t hrest x]
      simp [inOrderData, childDocs]

/-- C2: documents with pairwise-distinct compound keys inserted in any
order come back from `inOrder('data')` in non-decreasing comparator order
(no adjacent or non-adjacent pair is strictly out of order); concretely,
for index `{a: 1, b: -1}` the inserts `[{a:1,b:2}, {a:1,b:1}, {a:2,b:5}]`
dump in exactly that order. -/
theorem C2_sortedness :
    (∀ (ks : List KeyEntry) (pkv : Val) (ds : List Val) (t : BTree),
      (∀ d ∈ ds, jsFalsy d = false) →
      ds.Pairwise (fun a b => compareFunc ks a b ≠ 0) →
      buildTree ks pkv ds = some t →
      (inOrderData t).Pairwise (fun x y => compareFunc ks x y ≠ 1)) ∧
    (buildTree ksAB .undef [dA1B2, dA1B1, dA2B5]).map inOrderData =
      some [dA1B2, dA1B1, dA2B5] := by
  constructor
  · intro ks pkv ds t hds _hdist hb
    obtain ⟨hw, _, _⟩ := buildTree_props ks pkv ds t hb hds
    exact sorted_of_WF ks t hw
  · decide

/-- Closed instance of `C2_sortedness` at the concrete scenario. -/
theorem C2_sortedness_witness :
    (inOrderData tC2).Pairwise (fun x y => compareFunc ksAB x y ≠ 1) :=
  C2_sortedness.1 ksAB .undef [dA1B2, dA1B1, dA2B5] tC2 (by decide)
    (by decide) (by decide)

/-- C3: on a populated node, comparator result `0` or `1` routes the new
document to the left branch and `-1` to the right branch, recursing into an
existing child and otherwise creating a new node there; consequently two
documents with identical compound keys are both retained and both returned
by `lookup` on that key. -/
theorem C3_insert_routing_and_duplicates :
    (∀ (ks : List KeyEntry) (D : Val) (s : List Val) (pk : Val)
        (l r : Child) (d : Val), jsFalsy D = false →
      (compareFunc ks D d = 0 ∨ compareFunc ks D d = 1 →
        insert ks (.node D s pk l r) d = .node D s pk (insertChild ks l d) r) ∧
      (compareFunc ks D d = -1 →
        insert ks (.node D s pk l r) d = .node D s pk l (insertChild ks r d)) ∧
      (∀ ct, insertChild ks (.some ct) d = .some (insert ks ct d)) ∧
      (insertChild ks .none d = .some (.node d [] .undef .none .none))) ∧
    (∀ (ks : List KeyEntry) (pkv : Val) (ds : List Val) (d₁ d₂ : Val)
        (t : BTree),
      (∀ d ∈ ds ++ [d₁, d₂], jsFalsy d = false) →
      compareFunc ks d₁ d₂ = 0 →
      buildTree ks pkv (ds ++ [d₁, d₂]) = some t →
      d₁ ∈ lookup ks t d₁ ∧ d₂ ∈ lookup ks t d₁) := by
  constructor
  · intro ks D s pk l r d hD
    refine ⟨?_, fun hc => insert_eq_right ks hD hc, fun ct => rfl, rfl⟩
    intro hc
    rcases hc with hc | hc
    · exact insert_eq_left_eq ks hD hc
    · exact insert_eq_left_lt ks hD hc
  · intro ks pkv ds d₁ d₂ t hds hdup hb
    obtain ⟨hw, _ht, hmem⟩ := buildTree_props ks pkv (ds ++ [d₁, d₂]) t hb hds
    have hC := isCmp_compareFunc ks
    have h1 : d₁ ∈ inOrderData t := (hmem d₁).mpr (by simp)
    have h2 : d₂ ∈ inOrderData t := (hmem d₂).mpr (by simp)
    have hflip := hC.flip d₁ d₂
    exact ⟨lookup_complete ks t hw d₁ d₁ h1 (hC.refl d₁),
      lookup_complete ks t hw d₂ d₁ h2 (by omega)⟩

/-- Closed instance of `C3_insert_routing_and_duplicates`: a `-1` result
routes right at a concrete node, and two same-key documents are both
found by `lookup` after insertion. -/
theorem C3_insert_routing_witness :
    insert ksAB (.node dA1B2 [] .undef .none .none) dA1B1 =
      .node dA1B2 [] .undef .none (insertChild ksAB .none dA1B1) ∧
    (e1 ∈ lookup ks1 tDup e1 ∧ e2 ∈ lookup ks1 tDup e1) :=
  ⟨((C3_insert_routing_and_duplicates.1 ksAB dA1B2 [] .undef .none .none
      dA1B1 (by decide)).2.1 (by decide)),
    C3_insert_routing_and_duplicates.2 ks1 (.str "id") [] e1 e2 tDup
      (by decide) (by decide) (by decide)⟩

/-- C4: every child node `insert` creates is constructed with the
never-assigned `this._binaryTree` as its primary key, so in a built tree
every non-root node's primary key is `undefined`; and at any node whose
primary key is `undefined`, `remove` compares
`this._data["undefined"] === data["undefined"]` — `undefined === undefined`
for documents without an `"undefined"` field — and immediately splices that
node no matter which document was passed. -/
theorem C4_child_primary_key_undefined :
    (∀ (ks : List KeyEntry) (pkv : Val) (ds : List Val) (t : BTree),
      buildTree ks pkv ds = some t → subPkUndef t = true) ∧
    (∀ (ks : List KeyEntry) (D : Val) (s : List Val) (l r : Child) (d : Val),
      member D "undefined" = .ok .undef →
      member d "undefined" = .ok .undef →
      removeE ks (.node D s .undef l r) d =
        .ok (spliceRemove (.node D s .undef l r), true)) := by
  constructor
  · exact fun ks pkv ds t h => buildTree_subPkUndef ks pkv ds t h
  · intro ks D s l r d h1 h2
    rw [removeE]
    simp only [keyToStr, h1, h2]
    rfl

/-- Closed instance of `C4_child_primary_key_undefined`: the tree built
from three documents has `undefined` primary keys below the root, and a
node with an `undefined` primary key is spliced by `remove` for an
unrelated document. -/
theorem C4_child_primary_key_undefined_witness :
    subPkUndef tC2 = true ∧
    removeE ks1 (.node e1 [] .undef .none .none) e2 =
      .ok (spliceRemove (.node e1 [] .undef .none .none), true) :=
  ⟨C4_child_primary_key_undefined.1 ksAB .undef [dA1B2, dA1B1, dA2B5] tC2
      (by decide),
    C4_child_primary_key_undefined.2 ks1 e1 [] .none .none e2 rfl rfl⟩

/-- C1 at the failing input: the tree indexed on `a` with primary key
`id` holds `r0 = {id:1,a:10}`, `m0 = {id:2,a:5}` (left child) and
`d0 = {id:3,a:3}` (left-left grandchild).  `remove(d0)` returns `true`,
but it spliced the child holding `m0` (whose primary key field is
`undefined`, matching `d0["undefined"]`): afterwards `lookup(d0)` still
returns `d0`, and `m0` — present before — is gone. -/
theorem C1_remove_failing_input :
    (removeE ks1 t0 d0).map (fun p => p.2) = .ok true ∧
    (removeE ks1 t0 d0).map (fun p => lookup ks1 p.1 d0) = .ok [d0] ∧
    (removeE ks1 t0 d0).map (fun p => inOrderData p.1) = .ok [d0, r0] ∧
    m0 ∈ inOrderData t0 := by
  exact ⟨rfl, rfl, rfl, by decide⟩

theorem isStr_exists {v : Val} (h : isStr v = true) : ∃ s, v = .str s := by
  cases v <;> simp [isStr] at h ⊢

theorem isObjV_exists {v : Val} (h : isObjV v = true) : ∃ fs, v = .obj fs := by
  cases v <;> simp [isObjV] at h ⊢

theorem startsWith_ok (path v : String) :
    ∀ (t : BTree), (∀ d ∈ inOrderData t, isStr (pathGet d path) = true) →
      exceptOk (startsWithE path v t) = true
  | .node D s pk l r, h => by
    obtain ⟨sD, hsD⟩ := isStr_exists (h D (by simp [inOrderData]))
    have hL : ∃ la, startsWithC path v l = .ok la := by
      cases l with
      | none => exact ⟨[], rfl⟩
      | some lt =>
          have hok := startsWith_ok path v lt
            (fun d hd => h d (by simp [inOrderData, childDocs, hd]))
          cases hlt : startsWithE path v lt with
          | ok la => exact ⟨la, by rw [startsWithC, hlt]⟩
          | error e => rw [hlt] at hok; simp [exceptOk] at hok
    have hR : ∃ ra, startsWithC path v r = .ok ra := by
      cases r with
      | none => exact ⟨[], rfl⟩
      | some rt =>
          have hok := startsWith_ok path v rt
            (fun d hd => h d (by simp [inOrderData, childDocs, hd]))
          cases hrt : startsWithE path v rt with
          | ok ra => exact ⟨ra, by rw [startsWithC, hrt]⟩
          | error e => rw [hrt] at hok; simp [exceptOk] at hok
    obtain ⟨la, hla⟩ := hL
    obtain ⟨ra, hra⟩ := hR
    rw [startsWithE]
    rcases sortAsc_range (.str (strTake sD v.length)) (.str v) with
      hres | hres | hres <;>
      simp [substrJS, hsD, hres, hla, hra, exceptOk, Bind.bind, Except.bind]

theorem remove_ok (ks : List KeyEntry) :
    ∀ (t : BTree) (d : Val), (∀ x ∈ inOrderData t, isObjV x = true) →
      isObjV d = true → exceptOk (removeE ks t d) = true
  | .node D s pk l r, d, h, hd => by
    obtain ⟨fsD, hD⟩ := isObjV_exists (h D (by simp [inOrderData]))
    obtain ⟨fsd, hdd⟩ := isObjV_exists hd
    have hmem1 : member D (keyToStr pk) = .ok (fieldGet fsD (keyToStr pk)) := by
      rw [hD, member]
    have hmem2 : member d (keyToStr pk) = .ok (fieldGet fsd (keyToStr pk)) := by
      rw [hdd, member]
    have hL : ∃ res, removeChildE ks l d = .ok res := by
      cases l with
      | none => exact ⟨(.none, false), rfl⟩
      | some lt =>
          have hok := remove_ok ks lt d
            (fun x hx => h x (by simp [inOrderData, childDocs, hx])) hd
          cases hlt : removeE ks lt d with
          | ok p => exact ⟨(.some p.1, p.2), by rw [removeChildE, hlt]; rfl⟩
          | error e => rw [hlt] at hok; simp [exceptOk] at hok
    have hR : ∃ res, removeChildE ks r d = .ok res := by
      cases r with
      | none => exact ⟨(.none, false), rfl⟩
      | some rt =>
          have hok := remove_ok ks rt d
            (fun x hx => h x (by simp [inOrderData, childDocs, hx])) hd
          cases hrt : removeE ks rt d with
          | ok p => exact ⟨(.some p.1, p.2), by rw [removeChildE, hrt]; rfl⟩
          | error e => rw [hrt] at hok; simp [exceptOk] at hok
    obtain ⟨resL, hresL⟩ := hL
    obtain ⟨resR, hresR⟩ := hR
    rw [removeE]
    by_cases hse : strictEq (fieldGet fsD (keyToStr pk))
        (fieldGet fsd (keyToStr pk)) = true <;>
      rcases (isCmp_compareFunc ks).range D d with hc | hc | hc <;>
      simp [hmem1, hmem2, hse, hc, hresL, hresR, exceptOk, Bind.bind,
        Except.bind]

/-- C7 counterexample: `startsWith` on a tree holding a document that
lacks the queried field calls `.substr` on `undefined` and throws a
`TypeError` — it is not the case that no tree operation ever throws for a
partially-missing document. -/
theorem C7_startsWith_throws :
    startsWithE "name" "x" tMiss =
      .error "TypeError: substr is not a function" := rfl

/-- C7 amended: the comparator-driven operations degrade missing fields to
`undefined` (insert, lookup, inOrder, findRange and match are total
functions of the model, and `remove` succeeds whenever the stored payloads
and the argument are objects), but `startsWith` throws when it reaches a
document whose resolved field value is not a string; it succeeds whenever
every stored document resolves to a string at the path. -/
theorem C7_no_throw_except_startsWith :
    (∀ (path v : String) (t : BTree),
      (∀ d ∈ inOrderData t, isStr (pathGet d path) = true) →
      exceptOk (startsWithE path v t) = true) ∧
    (∀ (ks : List KeyEntry) (t : BTree) (d : Val),
      (∀ x ∈ inOrderData t, isObjV x = true) →
      isObjV d = true → exceptOk (removeE ks t d) = true) :=
  ⟨fun path v t h => startsWith_ok path v t h,
    fun ks t d h hd => remove_ok ks t d h hd⟩

/-- Closed instance of `C7_no_throw_except_startsWith` at concrete
string-valued and object-valued inputs. -/
theorem C7_no_throw_witness :
    exceptOk (startsWithE "a" "a" tStr) = true ∧
    exceptOk (removeE ks1 t0 d0) = true :=
  ⟨C7_no_throw_except_startsWith.1 "a" "a" tStr (by decide),
    C7_no_throw_except_startsWith.2 ks1 t0 d0 (by decide) (by decide)⟩

theorem sortAsc_str (a b : String) :
    sortAscIgnoreUndefined (.str a) (.str b) = strCmp a b := rfl

theorem compareFunc_singleton (k : KeyEntry) (a b : Val) :
    compareFunc [k] a b = fieldCmp k a b := by
  rw [compareFunc_cons]
  unfold lexCmp
  by_cases h : fieldCmp k a b = 0 <;> simp [h, compareFunc, compareFuncFrom]

theorem lex_of_take_lex :
    ∀ (n : Nat) (a b : List Char),
      List.Lex (· < ·) (a.take n) (b.take n) → List.Lex (· < ·) a b
  | 0, a, b, h => by
    rw [List.take_zero, List.take_zero] at h
    cases h
  | n + 1, [], b, h => by
    cases b with
    | nil => rw [List.take_nil] at h; cases h
    | cons y bs => exact List.Lex.nil
  | n + 1, x :: as, [], h => by
    rw [List.take_nil] at h
    cases h
  | n + 1, x :: as, y :: bs, h => by
    rw [List.take_succ_cons, List.take_succ_cons] at h
    cases h with
    | cons h' => exact List.Lex.cons (lex_of_take_lex n as bs h')
    | rel hr => exact List.Lex.rel hr

theorem strTake_toList (a : String) (n : Nat) :
    (strTake a n).toList = a.toList.take n :=
  List.toList_asString _

theorem strTake_le_strTake {a b : String} (n : Nat) (h : a ≤ b) :
    strTake a n ≤ strTake b n := by
  rw [String.le_iff_toList_le] at h ⊢
  rw [strTake_toList, strTake_toList]
  by_contra hc
  rw [not_le] at hc
  have hlex : List.Lex (· < ·) (b.toList.take n) (a.toList.take n) := hc
  have h2 := lex_of_take_lex n b.toList a.toList hlex
  exact absurd h (not_le_of_lt (show b.toList < a.toList from h2))

theorem startsWith_filter (path v : String) :
    ∀ (t : BTree), WF [⟨path, 1⟩] t →
      (∀ d ∈ inOrderData t, isStr (pathGet d path) = true) →
      startsWithE path v t =
        .ok ((inOrderData t).filter (prefMatch path v))
  | .node D s pk l r, hw, h => by
    rw [WF_node] at hw
    obtain ⟨hwl, hwr, hcl, hcr⟩ := hw
    obtain ⟨sD, hsD⟩ := isStr_exists (h D (by simp [inOrderData]))
    have hL : startsWithC path v l =
        .ok ((childDocs l).filter (prefMatch path v)) := by
      cases l with
      | none => rfl
      | some lt =>
          rw [startsWithC, childDocs]
          exact startsWith_filter path v lt (WFc_some.mp hcl)
            (fun d hd => h d (by simp [inOrderData, childDocs, hd]))
    have hR : startsWithC path v r =
        .ok ((childDocs r).filter (prefMatch path v)) := by
      cases r with
      | none => rfl
      | some rt =>
          rw [startsWithC, childDocs]
          exact startsWith_filter path v rt (WFc_some.mp hcr)
            (fun d hd => h d (by simp [inOrderData, childDocs, hd]))
    have hle_left : ∀ x ∈ childDocs l, strVal (pathGet x path) ≤ sD := by
      intro x hx
      obtain ⟨sx, hsx⟩ := isStr_exists
        (h x (by simp [inOrderData, childDocs, hx]))
      have hcmp := hwl x hx
      rw [compareFunc_singleton] at hcmp
      simp only [fieldCmp, if_pos rfl, reduceIte, hsD, hsx, sortAsc_str,
        strCmp_eq_cmp3] at hcmp
      rw [hsx]
      show sx ≤ sD
      rcases hcmp with hc | hc
      · rw [cmp3_eq_zero_iff] at hc
        exact le_of_eq hc.symm
      · rw [cmp3_eq_one_iff] at hc
        exact le_of_lt hc
    have hge_right : ∀ y ∈ childDocs r, sD ≤ strVal (pathGet y path) := by
      intro y hy
      obtain ⟨sy, hsy⟩ := isStr_exists
        (h y (by simp [inOrderData, childDocs, hy]))
      have hcmp := hwr y hy
      rw [compareFunc_singleton] at hcmp
      simp only [fieldCmp, if_pos rfl, reduceIte, hsD, hsy, sortAsc_str,
        strCmp_eq_cmp3] at hcmp
      rw [cmp3_eq_neg_one_iff] at hcmp
      rw [hsy]
      exact le_of_lt hcmp
    rw [startsWithE]
    have hres_def : sortAscIgnoreUndefined (.str (strTake sD v.length))
        (.str v) = cmp3 (strTake sD v.length) v := by
      rw [sortAsc_str, strCmp_eq_cmp3]
    rcases lt_trichotomy (strTake sD v.length) v with hlt | heq | hgt
    · have hres : sortAscIgnoreUndefined (.str (strTake sD v.length))
          (.str v) = -1 := by
        rw [hres_def, cmp3_eq_neg_one_iff]
        exact hlt
      have hreTest : ¬ (strTake sD v.length = v) := ne_of_lt hlt
      have hfl : (childDocs l).filter (prefMatch path v) = [] := by
        rw [List.filter_eq_nil_iff]
        intro x hx
        have hxlt : strTake (strVal (pathGet x path)) v.length < v :=
          lt_of_le_of_lt (strTake_le_strTake v.length (hle_left x hx)) hlt
        simp [prefMatch]
        exact ne_of_lt hxlt
      have hfD : prefMatch path v D = false := by
        simp [prefMatch, hsD, strVal]
        exact hreTest
      simp [substrJS, hsD, hres, hreTest, hL, hR, Bind.bind, Except.bind,
        inOrderData, List.filter_append, hfl, hfD]
    · have hres : sortAscIgnoreUndefined (.str (strTake sD v.length))
          (.str v) = 0 := by
        rw [hres_def, cmp3_eq_zero_iff]
        exact heq
      have hfD : prefMatch path v D = true := by
        simp [prefMatch, hsD, strVal]
        exact heq
      have hres0 : sortAscIgnoreUndefined (.str v) (.str v) = 0 := by
        rw [sortAsc_str]
        unfold strCmp
        simp
      simp [substrJS, hsD, hres, heq, hres0, hL, hR, Bind.bind, Except.bind,
        inOrderData, List.filter_append, hfD]
    · have hres : sortAscIgnoreUndefined (.str (strTake sD v.length))
          (.str v) = 1 := by
        rw [hres_def, cmp3_eq_one_iff]
        exact hgt
      have hreTest : ¬ (strTake sD v.length = v) := (ne_of_lt hgt).symm
      have hfr : (childDocs r).filter (prefMatch path v) = [] := by
        rw [List.filter_eq_nil_iff]
        intro y hy
        have hylt : v < strTake (strVal (pathGet y path)) v.length :=
          lt_of_lt_of_le hgt (strTake_le_strTake v.length (hge_right y hy))
        simp [prefMatch]
        exact (ne_of_lt hylt).symm
      have hfD : prefMatch path v D = false := by
        simp [prefMatch, hsD, strVal]
        exact hreTest
      simp [substrJS, hsD, hres, hreTest, hL, hR, Bind.bind, Except.bind,
        inOrderData, List.filter_append, hfr, hfD]

/-- C8 counterexample: on a tree ordered by the *descending* index
`{a: -1}`, document `{a: "b"}` — whose field value has the queried prefix
`"b"` — is stored but `startsWith("a", "b")` prunes the branch holding it
(its ascending-order pruning rule points the wrong way) and returns the
empty list, so `startsWith` does not return exactly the prefix-matching
subset for every tree and path. -/
theorem C8_startsWith_counterexample :
    (startsWithE "a" "b" tD).toOption = some [] ∧
    inOrderData tD = [sB, sAB] ∧
    prefMatch "a" "b" sB = true := by
  decide

/-- C8 amended: on a tree whose compound order is ascending on the queried
field itself (a single-field ascending index on that path) and whose
stored documents all resolve to strings there, `startsWith(path, v)`
returns exactly the stored documents whose resolved string value has `v`
as a literal prefix, in order. -/
theorem C8_startsWith_prefix_on_ascending_index :
    ∀ (path v : String) (pkv : Val) (ds : List Val) (t : BTree),
      (∀ d ∈ ds, jsFalsy d = false) →
      (∀ d ∈ ds, isStr (pathGet d path) = true) →
      buildTree [⟨path, 1⟩] pkv ds = some t →
      startsWithE path v t =
        .ok ((inOrderData t).filter (prefMatch path v)) := by
  intro path v pkv ds t hds hstr hb
  obtain ⟨hw, _ht, hmem⟩ := buildTree_props [⟨path, 1⟩] pkv ds t hb hds
  exact startsWith_filter path v t hw
    (fun d hd => hstr d ((hmem d).mp hd))

/-- Closed instance of `C8_startsWith_prefix_on_ascending_index` at a
concrete ascending string index. -/
theorem C8_startsWith_prefix_witness :
    startsWithE "a" "a" tStr =
      .ok ((inOrderData tStr).filter (prefMatch "a" "a")) :=
  C8_startsWith_prefix_on_ascending_index "a" "a" .undef
    [objOf [("a", .str "ab")], objOf [("a", .str "ba")]] tStr
    (by decide) (by decide) (by decide)

/-! ### Digit lemmas -/

theorem digitChar_isDigit {d : Nat} (h : d < 10) :
    (Nat.digitChar d).isDigit = true := by
  interval_cases d <;> decide

theorem dval_digitChar {d : Nat} (h : d < 10) :
    dval (Nat.digitChar d) = d := by
  interval_cases d <;> decide

theorem natDigitsAux_fuel :
    ∀ (f1 f2 n : Nat) (acc : List Char), n < f1 → n < f2 →
      natDigitsAux f1 n acc = natDigitsAux f2 n acc
  | f1 + 1, f2 + 1, n, acc, h1, h2 => by
    rw [natDigitsAux, natDigitsAux]
    by_cases hn : n < 10
    · simp [hn]
    · simp only [hn, if_false]
      have hd : n / 10 < n := Nat.div_lt_self (by omega) (by omega)
      exact natDigitsAux_fuel f1 f2 (n / 10) _ (by omega) (by omega)

theorem natDigitsAux_acc :
    ∀ (fuel n : Nat) (acc : List Char), n < fuel →
      natDigitsAux fuel n acc = natDigitsAux fuel n [] ++ acc
  | fuel + 1, n, acc, h => by
    rw [natDigitsAux, natDigitsAux]
    by_cases hn : n < 10
    · simp [hn]
    · simp only [hn, if_false]
      have hd : n / 10 < n := Nat.div_lt_self (by omega) (by omega)
      rw [natDigitsAux_acc fuel (n / 10) (Nat.digitChar (n % 10) :: acc)
          (by omega),
        natDigitsAux_acc fuel (n / 10) [Nat.digitChar (n % 10)] (by omega)]
      simp

theorem natDigits_small {n : Nat} (h : n < 10) :
    natDigits n = [Nat.digitChar n] := by
  rw [natDigits, natDigitsAux]
  simp [h]

theorem natDigits_decomp {n : Nat} (h : 10 ≤ n) :
    natDigits n = natDigits (n / 10) ++ [Nat.digitChar (n % 10)] := by
  rw [natDigits, natDigitsAux]
  simp only [show ¬ n < 10 by omega, if_false]
  have hd : n / 10 < n := Nat.div_lt_self (by omega) (by omega)
  rw [natDigitsAux_acc n (n / 10) _ (by omega),
    natDigitsAux_fuel n (n / 10 + 1) (n / 10) [] (by omega) (by omega)]
  rfl

theorem natDigits_digits (n : Nat) : ∀ c ∈ natDigits n, c.isDigit = true := by
  induction n using Nat.strong_induction_on with
  | _ n ih =>
      by_cases h : n < 10
      · rw [natDigits_small h]
        intro c hc
        simp at hc
        rw [hc]
        exact digitChar_isDigit h
      · rw [natDigits_decomp (by omega)]
        intro c hc
        rcases List.mem_append.mp hc with hc | hc
        · exact ih (n / 10) (Nat.div_lt_self (by omega) (by omega)) c hc
        · simp at hc
          rw [hc]
          exact digitChar_isDigit (Nat.mod_lt n (by omega))

theorem natDigits_ne_nil (n : Nat) : natDigits n ≠ [] := by
  by_cases h : n < 10
  · rw [natDigits_small h]
    simp
  · rw [natDigits_decomp (by omega)]
    simp

theorem parseDigits_append :
    ∀ (ds : List Char) (r : List Char) (A : Nat),
      (∀ c ∈ ds, c.isDigit = true) → noDigitHead r = true →
      parseDigits (ds ++ r) A =
        (ds.foldl (fun a c => a * 10 + dval c) A, r)
  | [], r, A, _, hr => by
    cases r with
    | nil => rfl
    | cons c rest =>
        rw [noDigitHead] at hr
        simp only [List.nil_append, List.foldl_nil, parseDigits]
        simp at hr
        simp [hr]
  | d :: ds, r, A, hds, hr => by
    rw [List.cons_append, parseDigits]
    rw [hds d (by simp)]
    simp only [if_true]
    rw [parseDigits_append ds r _ (fun c hc => hds c (by simp [hc])) hr]
    rfl

theorem foldl_natDigits (n : Nat) :
    ∀ (A : Nat), (natDigits n).foldl (fun a c => a * 10 + dval c) A =
      A * 10 ^ (natDigits n).length + n := by
  induction n using Nat.strong_induction_on with
  | _ n ih =>
      intro A
      by_cases h : n < 10
      · rw [natDigits_small h]
        simp [dval_digitChar h]
      · rw [natDigits_decomp (by omega)]
        rw [List.foldl_append,
          ih (n / 10) (Nat.div_lt_self (by omega) (by omega)) A]
        simp [dval_digitChar (Nat.mod_lt n (by omega)), List.length_append]
        ring_nf
        omega

theorem parseNat_round (n : Nat) (r : List Char) (hr : noDigitHead r = true) :
    parseDigits (natDigits n ++ r) 0 = (n, r) := by
  rw [parseDigits_append (natDigits n) r 0 (natDigits_digits n) hr,
    foldl_natDigits]
  simp

theorem parseStrBody_round :
    ∀ (s : List Char) (r : List Char),
      parseStrBody (escStr s ++ '"' :: r) = some (s, r)
  | [], r => by simp [escStr, parseStrBody.eq_def]
  | c :: s', r => by
    rw [escStr]
    by_cases hc : c = '"' ∨ c = '\\'
    · rw [escChar, if_pos hc]
      show parseStrBody ('\\' :: c :: (escStr s' ++ '"' :: r)) =
        some (c :: s', r)
      rw [parseStrBody.eq_def]
      simp [parseStrBody_round s' r]
    · rw [escChar, if_neg hc]
      push_neg at hc
      show parseStrBody (c :: (escStr s' ++ '"' :: r)) = some (c :: s', r)
      rw [parseStrBody.eq_def]
      simp [hc.1, hc.2, parseStrBody_round s' r]

theorem sizeV_pos (v : Val) : 1 ≤ sizeV v := by
  cases v <;> simp [sizeV]

theorem sizeF_pos (fs : Fields) : 1 ≤ sizeF fs := by
  cases fs <;> simp [sizeF]

theorem isDigit_ne {c : Char} (h : c.isDigit = true) :
    c ≠ '"' ∧ c ≠ '{' ∧ c ≠ '-' := by
  refine ⟨?_, ?_, ?_⟩ <;> rintro rfl <;> exact absurd h (by decide)

theorem asString_toList (s : String) : s.toList.asString = s := rfl

theorem asString_data (s : String) : s.data.asString = s := rfl

mutual

theorem sizeV_le_print : ∀ v : Val, sizeV v ≤ (printVal v).length + 1
  | .undef => by simp [sizeV, printVal]
  | .num n => by simp [sizeV]
  | .str s => by simp [sizeV]
  | .obj fs => by
    have h := sizeF_le_print fs
    simp only [sizeV, printVal, List.length_cons, List.length_append,
      List.length_singleton]
    omega

theorem sizeF_le_print : ∀ fs : Fields, sizeF fs ≤ (printFields fs).length + 1
  | .nil => by simp [sizeF, printFields]
  | .cons k v rest => by
    have h1 := sizeV_le_print v
    have h2 := sizeF_le_print rest
    cases rest with
    | nil =>
        simp only [sizeF, printFields, isNilF, if_pos rfl, List.length_cons,
          List.length_append, List.append_nil] at *
        omega
    | cons k2 v2 r2 =>
        simp only [sizeF, printFields, isNilF, Bool.false_eq_true,
          if_false, List.length_cons, List.length_append] at *
        omega

end

theorem parse_print_round :
    ∀ fuel : Nat,
      (∀ (v : Val) (r : List Char), sizeV v ≤ fuel → wfV v = true →
          noDigitHead r = true →
          parseV fuel (printVal v ++ r) = some (v, r)) ∧
      (∀ (fs : Fields) (r : List Char), sizeF fs ≤ fuel → wfF fs = true →
          isNilF fs = false →
          parseFieldsV fuel (printFields fs ++ '}' :: r) = some (fs, r)) := by
  intro fuel
  induction fuel with
  | zero =>
    constructor
    · intro v r hs _ _
      exact absurd hs (by have := sizeV_pos v; omega)
    · intro fs r hs _ _
      exact absurd hs (by have := sizeF_pos fs; omega)
  | succ fuel ih =>
    obtain ⟨ihV, ihF⟩ := ih
    constructor
    · intro v r hs hwf hr
      cases v with
      | undef => simp [wfV] at hwf
      | num n =>
        rw [printVal, intChars]
        by_cases hn : n < 0
        · rw [if_pos hn]
          cases hnd : natDigits (-n).toNat with
          | nil => exact absurd hnd (natDigits_ne_nil _)
          | cons d0 ds =>
            have hd0 : d0.isDigit = true :=
              natDigits_digits _ d0 (by rw [hnd]; simp)
            have hpd : parseDigits (d0 :: (ds ++ r)) 0 = ((-n).toNat, r) := by
              rw [show d0 :: (ds ++ r) = natDigits (-n).toNat ++ r by
                rw [hnd]; rfl]
              exact parseNat_round _ r hr
            rw [parseV.eq_def]
            simp only [List.cons_append]
            simp [hd0, hpd, Int.toNat_of_nonneg (by omega : (0:Int) ≤ -n)]
        · rw [if_neg hn]
          cases hnd : natDigits n.toNat with
          | nil => exact absurd hnd (natDigits_ne_nil _)
          | cons d0 ds =>
            have hd0 : d0.isDigit = true :=
              natDigits_digits _ d0 (by rw [hnd]; simp)
            obtain ⟨h1, h2, h3⟩ := isDigit_ne hd0
            have hpd : parseDigits (d0 :: (ds ++ r)) 0 = (n.toNat, r) := by
              rw [show d0 :: (ds ++ r) = natDigits n.toNat ++ r by
                rw [hnd]; rfl]
              exact parseNat_round _ r hr
            rw [parseV.eq_def]
            simp only [List.cons_append]
            simp [h1, h2, h3, hd0, hpd,
              Int.toNat_of_nonneg (by omega : (0:Int) ≤ n)]
      | str s =>
        have hsb := parseStrBody_round s.data r
        rw [printVal, parseV.eq_def]
        simp
        exact ⟨s.data, hsb, rfl⟩
      | obj fs =>
        rw [wfV] at hwf
        rw [printVal]
        cases fs with
        | nil =>
          rw [parseV.eq_def]
          simp [printFields]
        | cons k v fs' =>
          have hf : parseFieldsV fuel
              (printFields (.cons k v fs') ++ '}' :: r) =
              some (.cons k v fs', r) := by
            apply ihF
            · rw [sizeV] at hs; omega
            · exact hwf
            · rfl
          rw [printFields] at hf
          simp only [List.cons_append, List.append_assoc,
            List.nil_append, List.append_nil] at hf
          rw [parseV.eq_def]
          rw [printFields]
          simp only [List.cons_append, List.append_assoc,
            List.nil_append, List.append_nil, List.singleton_append]
          simp
          exact hf
    · intro fs r hs hwf hnil
      cases fs with
      | nil => simp [isNilF] at hnil
      | cons k v fs' =>
        rw [sizeF] at hs
        rw [wfF, Bool.and_eq_true] at hwf
        obtain ⟨hwv, hwf'⟩ := hwf
        have hvpos := sizeV_pos v
        have hfpos := sizeF_pos fs'
        cases fs' with
        | nil =>
          have hval := ihV v ('}' :: r) (by omega) hwv (by rfl)
          have hkey := parseStrBody_round k.data
            (':' :: (printVal v ++ '}' :: r))
          rw [parseFieldsV.eq_def, printFields]
          simp only [isNilF, if_pos rfl, List.append_nil, List.cons_append,
            List.append_assoc, List.nil_append]
          simp [hkey, hval, asString_data]
        | cons k2 v2 fs'' =>
          have hrec := ihF (.cons k2 v2 fs'') r (by omega) hwf' (by rfl)
          have hval := ihV v
            (',' :: (printFields (.cons k2 v2 fs'') ++ '}' :: r))
            (by omega) hwv (by rfl)
          have hkey := parseStrBody_round k.data
            (':' :: (printVal v ++
              (',' :: (printFields (.cons k2 v2 fs'') ++ '}' :: r))))
          rw [parseFieldsV.eq_def]
          rw [printFields]
          simp only [isNilF, Bool.false_eq_true, if_false, List.cons_append,
            List.append_assoc, List.nil_append]
          simp [hkey, hval, hrec, asString_data]

theorem jParse_jStringify (v : Val) (hwf : wfV v = true) :
    jParse (jStringify v) = v := by
  have hb := sizeV_le_print v
  have h := (parse_print_round ((printVal v).length + 1)).1 v []
    (by omega) hwf (by rfl)
  rw [List.append_nil] at h
  rw [jParse, show (jStringify v).toList = printVal v from rfl, h]

theorem findFdb_header (J : List Char) :
    findFdb ('j' :: 's' :: 'o' :: 'n' :: ':' :: ':' :: 'f' :: 'd' :: 'b' ::
        ':' :: ':' :: J) =
      some (['j', 's', 'o', 'n'], J) := by
  rfl

theorem splitFdb_header (J : List Char) (hJ : findFdb J = none) :
    splitFdb ('j' :: 's' :: 'o' :: 'n' :: ':' :: ':' :: 'f' :: 'd' :: 'b' ::
        ':' :: ':' :: J) =
      [['j', 's', 'o', 'n'], J] := by
  simp [splitFdb, splitFdbF, findFdb_header, hJ]

/-- C10 (counterexample): the claimed decode-after-encode identity fails on
the JSON-serializable object `{x: '::fdb::'}` — its JSON text contains the
`'::fdb::'` marker, so `_decode`'s split cuts the payload apart and the
parse of the fragment `{"x":"` fails, leaving no data and
`meta.foundData === false`. -/
theorem C10_roundtrip_counterexample :
    typeofObject (objOf [("x", .str "::fdb::")]) = true ∧
    wfV (objOf [("x", .str "::fdb::")]) = true ∧
    (encodeStep (objOf [("x", .str "::fdb::")])).1 =
      .str "json::fdb::\x7b\"x\":\"::fdb::\"\x7d" ∧
    (decodeStep (encodeStep (objOf [("x", .str "::fdb::")])).1).toOption =
      some (.undef, ⟨false, .undef⟩) := by
  decide

/-- C10 (amended): for every `undefined`-free object value whose JSON text
does not itself contain the `'::fdb::'` marker, `_encode` produces
`'json::fdb::' + jStringify(val)` and `_decode` maps that string back to an
equal object with `meta.foundData === true` (and `meta.rowCount` the
object's `length`, i.e. `undefined`). -/
theorem C10_encode_decode_roundtrip (v : Val)
    (hobj : typeofObject v = true) (hwf : wfV v = true)
    (hfree : fdbFree (jStringify v).toList = true) :
    (encodeStep v).1 = .str ("json::fdb::" ++ jStringify v) ∧
    decodeStep (encodeStep v).1 = .ok (v, ⟨true, .undef⟩) := by
  cases v with
  | undef => simp [typeofObject] at hobj
  | num n => simp [typeofObject] at hobj
  | str s => simp [typeofObject] at hobj
  | obj fs =>
    have henc : (encodeStep (Val.obj fs)).1 =
        .str ("json::fdb::" ++ jStringify (Val.obj fs)) := by
      simp [encodeStep, typeofObject, jsFalsy]
    refine ⟨henc, ?_⟩
    rw [henc]
    have hJ := jParse_jStringify (Val.obj fs) hwf
    rw [fdbFree] at hfree
    have hnone : findFdb (jStringify (Val.obj fs)).data = none :=
      Option.isNone_iff_eq_none.mp hfree
    have hlist : ("json::fdb::" ++ jStringify (Val.obj fs)).toList =
        'j' :: 's' :: 'o' :: 'n' :: ':' :: ':' :: 'f' :: 'd' :: 'b' ::
          ':' :: ':' :: (jStringify (Val.obj fs)).toList := by
      show ("json::fdb::" ++ jStringify (Val.obj fs)).data = _
      rw [String.data_append]
      rfl
    have hne : ("json::fdb::" ++ jStringify (Val.obj fs)) ≠ "" := by
      intro h
      have h2 : ("json::fdb::" ++ jStringify (Val.obj fs)).toList = [] := by
        rw [h]; rfl
      rw [hlist] at h2
      simp at h2
    rw [decodeStep]
    simp [jsFalsy, hne, hlist, splitFdb_header _ hnone, List.getD,
      asString_data, hJ, jsLength]

/-- C10 (witness): the amended round-trip instantiated at `{x: 'y'}`. -/
theorem C10_encode_decode_roundtrip_witness :
    typeofObject (objOf [("x", .str "y")]) = true ∧
    wfV (objOf [("x", .str "y")]) = true ∧
    fdbFree (jStringify (objOf [("x", .str "y")])).toList = true ∧
    ((encodeStep (objOf [("x", .str "y")])).1 =
        .str ("json::fdb::" ++ jStringify (objOf [("x", .str "y")])) ∧
      decodeStep (encodeStep (objOf [("x", .str "y")])).1 =
        .ok (objOf [("x", .str "y")], ⟨true, .undef⟩)) :=
  ⟨by decide, by decide, by decide,
    C10_encode_decode_roundtrip _ (by decide) (by decide) (by decide)⟩

end FDB
